import Mathlib

/-!
Verification of the red-black tree implementation in `src/dsa_c/src/4_trees.c`.

The C code stores nodes on the heap with `left`/`right`/`parent` pointers and a
shared always-BLACK sentinel `tree->nil` standing for every absent child.  The
shallow embedding below represents a (sub)tree as an inductive value `RBNode`:
the sentinel is the constructor `RBNode.nil`, and the `parent` pointers, which
the C code uses only to walk from a node back towards the root inside the
fixup loops, are represented positionally by an explicit context type `Path`
(the frames between a node and the root, innermost frame first).  Plugging a
subtree into a `Path` (`plug`) rebuilds the whole tree, which is what the
parent pointers denote.  Pointer surgery that only rewires `parent` fields
(e.g. the `x->parent = y` bookkeeping inside `rb_delete`) is a no-op on this
representation because parenthood is positional.

Machine integers: keys are C `int`s used only in comparisons; they are
embedded as `Int` (no arithmetic on keys is performed anywhere in the code,
so overflow cannot occur and no modular reduction is needed).
-/

set_option maxHeartbeats 4000000
set_option linter.unnecessarySeqFocus false

namespace RBTreeC

/-- `typedef enum { RED, BLACK } Color;` -/
inductive Color where
  | RED
  | BLACK
deriving DecidableEq, BEq

/-- `struct RBNode { int data; Color color; RBNode *left, *right, *parent; }`.
`nil` is the shared sentinel (`tree->nil`, always BLACK, `data` irrelevant);
`parent` is represented positionally (see module comment). -/
inductive RBNode where
  | nil
  | node (color : Color) (left : RBNode) (data : Int) (right : RBNode)
deriving DecidableEq, BEq

namespace RBNode

/-- Reading `x->color`; the sentinel is BLACK (`tree->nil->color = BLACK`). -/
def rootColor : RBNode → Color
  | .nil => .BLACK
  | .node c _ _ _ => c

/-- Reading `x->data`; the sentinel's data field is initialised to `0`
(`tree->nil->data = 0`, "Data irrelevant for sentinel"). -/
def rootKey : RBNode → Int
  | .nil => 0
  | .node _ _ k _ => k

/-- Reading `x->left`. The C sentinel has `left = NULL`; the code never
dereferences it on any reachable state, and we extend the read totally by
`nil.left = nil`. -/
def leftT : RBNode → RBNode
  | .nil => .nil
  | .node _ l _ _ => l

/-- Reading `x->right`; totalised like `leftT`. -/
def rightT : RBNode → RBNode
  | .nil => .nil
  | .node _ _ _ r => r

/-- Writing `x->color = c`. Writing to the sentinel (which `rb_delete_fixup`
does with `x->color = BLACK` when `x` is the sentinel) is a no-op: the
sentinel is already BLACK and stays BLACK. -/
def setColor : RBNode → Color → RBNode
  | .nil, _ => .nil
  | .node _ l k r, c => .node c l k r

end RBNode

/-- `rb_create_node`: a fresh node is RED with both children the sentinel
(allocation failure terminates the C process and is not modelled: the claims
under verification are about the successful executions). -/
def rb_create_node (data : Int) : RBNode :=
  .node .RED .nil data .nil

/-- `rb_rotate_left(tree, x)` acting on the subtree rooted at `x`.  The three
pointer updates of the C code amount to this local restructuring; the
grandparent/root pointer fix is positional (the caller plugs the result where
`x` stood).  The fallback arm covers the precondition violation
`x->right == tree->nil` (never invoked by the callers, per the code). -/
def rb_rotate_left : RBNode → RBNode
  | .node cx a kx (.node cy b ky c) => .node cy (.node cx a kx b) ky c
  | t => t

/-- `rb_rotate_right(tree, y)` on the subtree rooted at `y`; mirror of
`rb_rotate_left`. -/
def rb_rotate_right : RBNode → RBNode
  | .node cy (.node cx a kx b) ky c => .node cx a kx (.node cy b ky c)
  | t => t

/-- A context (zipper) recording the frames from a hole up to the root,
innermost frame first.  `left c k sib p` means: the hole is the LEFT child of
a node with color `c` and key `k` whose right child is `sib`, and that node
sits in context `p`; `right c sib k p` is the mirror (hole is the RIGHT
child, `sib` the left child).  This is the positional rendering of the C
`parent` pointers. -/
inductive Path where
  | root
  | left (c : Color) (k : Int) (sib : RBNode) (p : Path)
  | right (c : Color) (sib : RBNode) (k : Int) (p : Path)
deriving DecidableEq

/-- Rebuild the whole tree from a context and the subtree filling the hole. -/
def plug : Path → RBNode → RBNode
  | .root, t => t
  | .left c k sib p, t => plug p (.node c t k sib)
  | .right c sib k p, t => plug p (.node c sib k t)

/-- Replace the terminal `root` of the first context by the second context
(composition of contexts: `plug (appendP a q) t = plug q (plug a t)`). -/
def appendP : Path → Path → Path
  | .root, q => q
  | .left c k sib p, q => .left c k sib (appendP p q)
  | .right c sib k p, q => .right c sib k (appendP p q)

/-- The color of the node owning the hole (`x->parent->color`); at `root` the
parent is the sentinel, which is BLACK. -/
def headColor : Path → Color
  | .root => .BLACK
  | .left c _ _ _ => c
  | .right c _ _ _ => c

/-- The BST descent of `rb_insert_node`: walk from `t` to the sentinel
position where the new node will be linked, recording the context.  `data <
current->data` goes left, otherwise ("larger/equal") right. -/
def insDescend : RBNode → Int → Path → Path
  | .nil, _, p => p
  | .node c l x r, k, p =>
    if k < x then insDescend l k (.left c x r p) else insDescend r k (.right c l x p)

/-- The `while (z->parent->color == RED)` loop of `rb_fix_insert_violations`,
as a function of the context of `z` and the subtree rooted at `z`.  Each arm
is the composite effect of one loop iteration:

* parent BLACK (or `z` at the root, whose parent is the BLACK sentinel):
  the loop exits and the tree is reassembled;
* CASE 1 (uncle RED): recolor parent and uncle BLACK and grandparent RED,
  continue from the grandparent;
* CASE 2/3 (uncle BLACK): the rotation/recolor combination below; afterwards
  the new parent of `z` is BLACK, so the loop exits and the tree is
  reassembled.

The two arms matching a RED frame directly under `root` correspond to a state
the C code cannot reach (a RED root mid-loop: there `z->parent->parent` is
the sentinel whose `left` is NULL and `uncle->color` would dereference NULL);
`insFixLoop_no_red_top` below proves the state unreachable, and the arm
just reassembles the tree. -/
def insFixLoop : Path → RBNode → RBNode
  | .root, z => z
  | .left .BLACK pk ps pp, z => plug pp (.node .BLACK z pk ps)
  | .right .BLACK ps pk pp, z => plug pp (.node .BLACK ps pk z)
  | .left .RED pk ps pp, z =>
    match pp with
    | .root => plug .root (.node .RED z pk ps)
    | .left _ gk u gpp =>
      match u with
      | .node .RED ul uk ur =>
        insFixLoop gpp (.node .RED (.node .BLACK z pk ps) gk (.node .BLACK ul uk ur))
      | _ =>
        plug gpp (rb_rotate_right (.node .RED (.node .BLACK z pk ps) gk u))
    | .right _ u gk gpp =>
      match u with
      | .node .RED ul uk ur =>
        insFixLoop gpp (.node .RED (.node .BLACK ul uk ur) gk (.node .BLACK z pk ps))
      | _ =>
        plug gpp (rb_rotate_left
          (.node .RED u gk ((rb_rotate_right (.node .RED z pk ps)).setColor .BLACK)))
  | .right .RED ps pk pp, z =>
    match pp with
    | .root => plug .root (.node .RED ps pk z)
    | .left _ gk u gpp =>
      match u with
      | .node .RED ul uk ur =>
        insFixLoop gpp (.node .RED (.node .BLACK ps pk z) gk (.node .BLACK ul uk ur))
      | _ =>
        plug gpp (rb_rotate_right
          (.node .RED ((rb_rotate_left (.node .RED ps pk z)).setColor .BLACK) gk u))
    | .right _ u gk gpp =>
      match u with
      | .node .RED ul uk ur =>
        insFixLoop gpp (.node .RED (.node .BLACK ul uk ur) gk (.node .BLACK ps pk z))
      | _ =>
        plug gpp (rb_rotate_left (.node .RED u gk (.node .BLACK ps pk z)))

/-- `rb_fix_insert_violations`: the loop, then `tree->root->color = BLACK`. -/
def rb_fix_insert_violations (p : Path) (z : RBNode) : RBNode :=
  (insFixLoop p z).setColor .BLACK

/-- `rb_insert_node(tree, data)`: BST descent, link the fresh RED node,
fixup. -/
def rb_insert_node (t : RBNode) (data : Int) : RBNode :=
  rb_fix_insert_violations (insDescend t data .root) (rb_create_node data)

/-- `rb_search(tree, x, data)`. -/
def rb_search (x : RBNode) (data : Int) : RBNode :=
  match x with
  | .nil => .nil
  | .node c l k r =>
    if data = k then .node c l k r
    else if data < k then rb_search l data
    else rb_search r data

/-- The same descent as `rb_search`, but returning the context and the fields
of the located node; used by the delete operation, whose argument node is
obtained via `rb_search` (per the C drivers). -/
def searchZ : RBNode → Int → Path → Option (Path × Color × RBNode × Int × RBNode)
  | .nil, _, _ => none
  | .node c l x r, k, p =>
    if k = x then some (p, c, l, x, r)
    else if k < x then searchZ l k (.left c x r p)
    else searchZ r k (.right c l x p)

/-- `rb_minimum(tree, x)` fused with the context bookkeeping needed by
`rb_delete`: descend the left spine of `x` collecting frames; at the minimum
`y` (left child = sentinel) return `y`'s key, color, right child `x = y->right`
and the context of that right child's future position. -/
def delMinGo : RBNode → Path → Option (Int × Color × RBNode × Path)
  | .nil, _ => none
  | .node c .nil k r, p => some (k, c, r, p)
  | .node c l k r, p => delMinGo l (.left c k r p)

/-- The composite of CASE 3 and CASE 4 of `rb_delete_fixup` for `x` a left
child, with sibling `w` (final argument; a node in every reachable state).
CASE 3 applies when `w`'s far (right) child is BLACK: recolor `w`'s near
child BLACK and `w` RED and rotate `w` right, giving the new sibling; CASE 4
then recolors the sibling to the parent's color `pc`, the parent BLACK and
the far child BLACK, rotates the parent left, sets `x = tree->root` (so the
loop exits), and the trailing `x->color = BLACK` colors the root.  This
composite is shared by the bare path (parent color `pc` from the frame) and
the path behind CASE 1 (parent just recolored RED, sibling = the RED
sibling's near child).  The rotation result is always a node; the dead
`.nil` arms reassemble the tree. -/
def delCase34L (pp : Path) (pc : Color) (pk : Int) (x : RBNode) : RBNode → RBNode
  | .node cw wl wk wr =>
    match (if wr.rootColor = .BLACK then
             rb_rotate_right (.node .RED (wl.setColor .BLACK) wk wr)
           else .node cw wl wk wr) with
    | .node _ w2l w2k w2r =>
      ((plug pp (rb_rotate_left (.node .BLACK x pk
        (.node pc w2l w2k (w2r.setColor .BLACK)))))).setColor .BLACK
    | .nil => plug (.left pc pk (.node cw wl wk wr) pp) x
  | .nil => plug (.left pc pk .nil pp) x

/-- Mirror of `delCase34L` for `x` a right child (sibling on the left). -/
def delCase34R (pp : Path) (pc : Color) (pk : Int) (x : RBNode) : RBNode → RBNode
  | .node cw wl wk wr =>
    match (if wl.rootColor = .BLACK then
             rb_rotate_left (.node .RED wl wk (wr.setColor .BLACK))
           else .node cw wl wk wr) with
    | .node _ w2l w2k w2r =>
      ((plug pp (rb_rotate_right (.node .BLACK
        (.node pc (w2l.setColor .BLACK) w2k w2r) pk x)))).setColor .BLACK
    | .nil => plug (.right pc (.node cw wl wk wr) pk pp) x
  | .nil => plug (.right pc .nil pk pp) x

/-- The `while (x != tree->root && x->color == BLACK)` loop of
`rb_delete_fixup`, followed by the trailing `x->color = BLACK`, as a function
of the context of `x` and the subtree rooted at `x`.  Arms:

* `x` at the root, or `x` RED: the loop exits and `x` is colored BLACK;
* sibling `w` RED (CASE 1): after the recolor and rotation the new sibling
  is `w`'s near child and the parent is RED; a subsequent CASE 2 therefore
  exits the loop on the next test (the new `x` is RED, and is then colored
  BLACK), and CASE 3/4 terminate, so each composite is written out directly;
* sibling BLACK with two BLACK children (CASE 2): recolor the sibling RED
  and push the problem to the parent;
* otherwise the CASE 3/4 composite `delCase34L`/`delCase34R`.

A sentinel sibling would make the C code read `w->left` on the NULL children
of the sentinel; that state is unreachable (the invariant proof never visits
it), and the arm takes the both-children-BLACK branch that the all-BLACK
reads would select. -/
def delFixup : Path → RBNode → RBNode
  | .root, x => x.setColor .BLACK
  | .left pc pk w pp, x =>
    if x.rootColor = .RED then plug (.left pc pk w pp) (x.setColor .BLACK) else
    match w with
    | .node .RED wl wk wr =>
      if wl.leftT.rootColor = .BLACK ∧ wl.rightT.rootColor = .BLACK then
        plug (.left .BLACK wk wr pp) (.node .BLACK x pk (wl.setColor .RED))
      else delCase34L (.left .BLACK wk wr pp) .RED pk x wl
    | .node .BLACK wl wk wr =>
      if wl.rootColor = .BLACK ∧ wr.rootColor = .BLACK then
        delFixup pp (.node pc x pk (.node .RED wl wk wr))
      else delCase34L pp pc pk x (.node .BLACK wl wk wr)
    | .nil => delFixup pp (.node pc x pk .nil)
  | .right pc w pk pp, x =>
    if x.rootColor = .RED then plug (.right pc w pk pp) (x.setColor .BLACK) else
    match w with
    | .node .RED wl wk wr =>
      if wr.leftT.rootColor = .BLACK ∧ wr.rightT.rootColor = .BLACK then
        plug (.right .BLACK wl wk pp) (.node .BLACK (wr.setColor .RED) pk x)
      else delCase34R (.right .BLACK wl wk pp) .RED pk x wr
    | .node .BLACK wl wk wr =>
      if wr.rootColor = .BLACK ∧ wl.rootColor = .BLACK then
        delFixup pp (.node pc (.node .RED wl wk wr) pk x)
      else delCase34R pp pc pk x (.node .BLACK wl wk wr)
    | .nil => delFixup pp (.node pc .nil pk x)

/-- `rb_delete(tree, z)` where `z` is the node found by `rb_search(tree,
tree->root, k)`, guarded by the `if (node != tree->nil)` check every caller
performs; absent key: no-op.  The three branches follow the C code: left
child sentinel (transplant the right child), right child sentinel (transplant
the left child), two children (splice the minimum `y` of the right subtree
into `z`'s position with `z`'s color — the transplant formulation preserves
node identity, which is value-irrelevant here).  Fixup runs iff the removed
color (`y_original_color`) was BLACK. -/
def rb_delete (t : RBNode) (k : Int) : RBNode :=
  match searchZ t k .root with
  | none => t
  | some (p, zc, l, _, r) =>
    match l with
    | .nil => if zc = .BLACK then delFixup p r else plug p r
    | .node lc ll lk lr =>
      match r with
      | .nil =>
        if zc = .BLACK then delFixup p (.node lc ll lk lr)
        else plug p (.node lc ll lk lr)
      | .node rc rl rk rr =>
        match delMinGo (.node rc rl rk rr) .root with
        | none => plug p (.node zc (.node lc ll lk lr) k (.node rc rl rk rr))
        | some (yk, yc, yr, ip) =>
          let q := appendP ip (Path.right zc (.node lc ll lk lr) yk p)
          if yc = .BLACK then delFixup q yr else plug q yr

/-- `rb_count_nodes`. -/
def rb_count_nodes : RBNode → Nat
  | .nil => 0
  | .node _ l _ r => 1 + rb_count_nodes l + rb_count_nodes r

/-- `rb_height` (0 for the sentinel). -/
def rb_height : RBNode → Nat
  | .nil => 0
  | .node _ l _ r => 1 + max (rb_height l) (rb_height r)

/-- `rb_black_height`: 1 at the sentinel, and the count of BLACK nodes down
the left spine. -/
def rb_black_height : RBNode → Nat
  | .nil => 1
  | .node c l _ _ => rb_black_height l + (if c = .BLACK then 1 else 0)

/-- `rb_find_lca(tree, root, n1, n2)`. -/
def rb_find_lca : RBNode → Int → Int → RBNode
  | .nil, _, _ => .nil
  | .node c l k r, n1, n2 =>
    if n1 < k ∧ n2 < k then rb_find_lca l n1 n2
    else if n1 > k ∧ n2 > k then rb_find_lca r n1 n2
    else .node c l k r

/-- `rb_traverse_inorder`: the sequence of `(data, color)` pairs printed. -/
def rb_traverse_inorder : RBNode → List (Int × Color)
  | .nil => []
  | .node c l k r => rb_traverse_inorder l ++ (k, c) :: rb_traverse_inorder r

/-- `rb_traverse_preorder`: the sequence of `(data, color)` pairs printed. -/
def rb_traverse_preorder : RBNode → List (Int × Color)
  | .nil => []
  | .node c l k r => (k, c) :: (rb_traverse_preorder l ++ rb_traverse_preorder r)

/-- The key sequence of the inorder traversal (the printed `data` fields). -/
def inKeys : RBNode → List Int
  | .nil => []
  | .node _ l k r => inKeys l ++ k :: inKeys r

/-- Size measure for the DFS/BFS loop termination (counts sentinels too, so
popping any element strictly decreases the measure). -/
def tsize : RBNode → Nat
  | .nil => 1
  | .node _ l _ r => 1 + tsize l + tsize r

/-- Sum of `tsize` over a work list (stack or queue contents). -/
def wsize (l : List RBNode) : Nat := (l.map tsize).sum

/-- The stack loop of `rb_traverse_dfs_iterative`.  The head of the list is
the top of the stack.  Popped node: in search mode (`search_value != -1`) a
key match returns the node before visiting; otherwise the node is visited
(printed — first component) and the right child then the left child are
pushed (left on top), each only if not the sentinel.  The `.nil` arm is
unreachable (the sentinel is never pushed) and pops without effect. -/
def dfsIterGo (sv : Int) : List RBNode → List (Int × Color) × Option RBNode
  | [] => ([], none)
  | .nil :: rest => dfsIterGo sv rest
  | .node c l k r :: rest =>
    if sv ≠ -1 ∧ k = sv then ([], some (.node c l k r))
    else
      let res := dfsIterGo sv
        ((if l = .nil then [] else [l]) ++ (if r = .nil then [] else [r]) ++ rest)
      if sv = -1 then ((k, c) :: res.1, res.2) else res
termination_by l => wsize l
decreasing_by
  · simp [wsize, tsize]
  · simp only [wsize, List.map_append, List.sum_append, List.map_cons, List.sum_cons]
    split <;> split <;> simp [tsize] <;> omega

/-- `rb_traverse_dfs_iterative(tree, root, search_value)`: the pair of the
printed visit sequence (empty in search mode, where nothing is printed) and
the returned node (`NULL`, i.e. `none`, in traverse mode and on a miss). -/
def rb_traverse_dfs_iterative (root : RBNode) (search_value : Int) :
    List (Int × Color) × Option RBNode :=
  if root = .nil then ([], none) else dfsIterGo search_value [root]

/-- `rb_traverse_dfs_recursive(tree, node, search_value)`. -/
def rb_traverse_dfs_recursive : RBNode → Int → List (Int × Color) × Option RBNode
  | .nil, _ => ([], none)
  | .node c l k r, sv =>
    if sv ≠ -1 ∧ k = sv then ([], some (.node c l k r))
    else
      let vis : List (Int × Color) := if sv = -1 then [(k, c)] else []
      let lres := rb_traverse_dfs_recursive l sv
      match lres.2 with
      | some f => (vis ++ lres.1, some f)
      | none =>
        let rres := rb_traverse_dfs_recursive r sv
        (vis ++ lres.1 ++ rres.1, rres.2)

/-- The queue loop of `rb_traverse_bfs`.  The head of the list is the front
of the queue; children are enqueued at the back, left before right. -/
def bfsGo (sv : Int) : List RBNode → List (Int × Color) × Option RBNode
  | [] => ([], none)
  | .nil :: rest => bfsGo sv rest
  | .node c l k r :: rest =>
    if sv ≠ -1 ∧ k = sv then ([], some (.node c l k r))
    else
      let res := bfsGo sv
        (rest ++ (if l = .nil then [] else [l]) ++ (if r = .nil then [] else [r]))
      if sv = -1 then ((k, c) :: res.1, res.2) else res
termination_by l => wsize l
decreasing_by
  · simp [wsize, tsize]
  · simp only [wsize, List.map_append, List.sum_append, List.map_cons, List.sum_cons]
    split <;> split <;> simp [tsize] <;> omega

/-- `rb_traverse_bfs(tree, root, search_value)`. -/
def rb_traverse_bfs (root : RBNode) (search_value : Int) :
    List (Int × Color) × Option RBNode :=
  if root = .nil then ([], none) else bfsGo search_value [root]

/-- `rb_sorted_array_to_bst_helper(tree, arr, start, end)`.  `arr[mid]` is
`List.getD`; the C `/` truncates toward zero while Lean's `Int` `/` is
euclidean, but the two agree on the nonnegative operands produced here
(`end - start ≥ 0` whenever the division is reached). -/
def rb_sorted_array_to_bst_helper (arr : List Int) (start e : Int) : RBNode :=
  if start > e then .nil
  else
    let mid := start + (e - start) / 2
    .node .RED (rb_sorted_array_to_bst_helper arr start (mid - 1))
      (arr.getD mid.toNat 0)
      (rb_sorted_array_to_bst_helper arr (mid + 1) e)
termination_by (e + 1 - start).toNat
decreasing_by
  · omega
  · omega

/-- `rb_create_from_sorted_array(arr, size)`: `NULL` (`none`) for a
nonpositive size, else the helper's tree with the root colored BLACK
(coloring the sentinel root of an impossible empty result is a no-op, like
the C guard `tree->root != tree->nil`). -/
def rb_create_from_sorted_array (arr : List Int) (size : Int) : Option RBNode :=
  if size ≤ 0 then none
  else some ((rb_sorted_array_to_bst_helper arr 0 (size - 1)).setColor .BLACK)

/-- One tree mutation of the external interface: `insert(Tree, key)` or
`delete(Tree, node)` where `node = search(tree, key)` and the deletion is
skipped when the search misses (the pattern of every C driver). -/
inductive Op where
  | ins (k : Int)
  | del (k : Int)
deriving DecidableEq

/-- Apply one operation. -/
def step (t : RBNode) : Op → RBNode
  | .ins k => rb_insert_node t k
  | .del k => rb_delete t k

/-- Run a sequence of operations from the empty tree (`rb_create_tree`:
`root = nil`). -/
def runOps (ops : List Op) : RBNode :=
  ops.foldl step .nil

/-! ### Invariant predicates (the five red-black properties of the spec) -/

/-- Property 3 of the spec: a RED node never has a RED child. -/
def noRedRed : RBNode → Bool
  | .nil => true
  | .node .RED l _ r =>
    (l.rootColor == .BLACK) && (r.rootColor == .BLACK) && noRedRed l && noRedRed r
  | .node .BLACK l _ r => noRedRed l && noRedRed r

/-- The number of BLACK nodes on each path from the root of `t` to a
descendant sentinel (one list entry per sentinel, left to right). -/
def pbcounts : RBNode → List Nat
  | .nil => [0]
  | .node c l _ r =>
    (pbcounts l ++ pbcounts r).map (fun n => n + (if c = .BLACK then 1 else 0))

/-- All (non-sentinel) nodes of the tree, as the subtrees they root. -/
def subtreesL : RBNode → List RBNode
  | .nil => []
  | .node c l k r => .node c l k r :: (subtreesL l ++ subtreesL r)

/-- All nodes paired with their depth (`d` for the root of the argument). -/
def subDepths : RBNode → Nat → List (RBNode × Nat)
  | .nil, _ => []
  | .node c l k r, d => (.node c l k r, d) :: (subDepths l (d + 1) ++ subDepths r (d + 1))

/-- Property 5 of the spec: for every node, all keys in its left subtree are
`≤` its key and all keys in its right subtree are `≥` its key. -/
def isBSTB : RBNode → Bool
  | .nil => true
  | .node _ l k r =>
    ((inKeys l).all fun a => decide (a ≤ k)) &&
    ((inKeys r).all fun b => decide (k ≤ b)) &&
    isBSTB l && isBSTB r

/-- Does key `k` occur in the tree ("reachable downward" in claim C6)? -/
def hasKeyB (t : RBNode) (k : Int) : Bool := (inKeys t).contains k

/-- Claim C6's property of a node `m` w.r.t. query keys `a ≤ b`: `m` is a
node whose key lies between `a` and `b` inclusive and from which both `a`
and `b` are reachable downward. -/
def lcaCandB (a b : Int) : RBNode → Bool
  | .nil => false
  | .node c l k r =>
    decide (a ≤ k) && decide (k ≤ b) &&
    hasKeyB (.node c l k r) a && hasKeyB (.node c l k r) b

/-- Count of BLACK nodes down the left spine (for claim C10). -/
def spineBlacks : RBNode → Nat
  | .nil => 0
  | .node c l _ _ => spineBlacks l + (if c = .BLACK then 1 else 0)

/-- The multiset model of the store: number of copies of `k` present after a
sequence of operations, assuming deletions of absent keys are no-ops
(truncated subtraction makes the decrement of an absent key a no-op, which
the correspondence proof justifies). -/
def modelCount (ops : List Op) (k : Int) : Nat :=
  ops.foldl
    (fun n op =>
      match op with
      | .ins j => if j = k then n + 1 else n
      | .del j => if j = k then n - 1 else n)
    0

/-- Claim C3's right-hand side, following the spec words: `k` was inserted
and not subsequently deleted, i.e. some insert of `k` is followed by no
delete of `k`. -/
def insertedNotLaterDeleted : List Op → Int → Bool
  | [], _ => false
  | .ins j :: rest, k =>
    (decide (j = k) && !(rest.contains (Op.del k))) || insertedNotLaterDeleted rest k
  | .del _ :: rest, k => insertedNotLaterDeleted rest k

/-! ### The balance invariant as an inductive relation

`Balanced t c n` says: `t` satisfies red-black properties 1–4 locally, its
root has color `c`, and every path from its root to a descendant sentinel
contains exactly `n` BLACK (non-sentinel) nodes. -/

inductive Balanced : RBNode → Color → Nat → Prop where
  | nil : Balanced .nil .BLACK 0
  | red {l r : RBNode} {k : Int} {n : Nat} :
      Balanced l .BLACK n → Balanced r .BLACK n → Balanced (.node .RED l k r) .RED n
  | black {l r : RBNode} {k : Int} {cl cr : Color} {n : Nat} :
      Balanced l cl n → Balanced r cr n → Balanced (.node .BLACK l k r) .BLACK (n + 1)

/-- The frame owning the hole is a BLACK node (in particular there is a
frame: the hole is not the root position). -/
def headBlack : Path → Prop
  | .root => False
  | .left c _ _ _ => c = .BLACK
  | .right c _ _ _ => c = .BLACK

/-- Well-formedness of a context w.r.t. a hole of black-height `n`: every
frame's sibling is balanced with the black-height the frame position
requires, RED frames have BLACK parent frames and BLACK-rooted siblings, and
the outermost frame is BLACK (contexts always come from trees with a BLACK
root). -/
inductive PathOk : Path → Nat → Prop where
  | root (n : Nat) : PathOk .root n
  | leftB {c : Color} {k : Int} {sib : RBNode} {p : Path} {n : Nat} :
      Balanced sib c n → PathOk p (n + 1) → PathOk (.left .BLACK k sib p) n
  | leftR {k : Int} {sib : RBNode} {p : Path} {n : Nat} :
      Balanced sib .BLACK n → PathOk p n → headBlack p → PathOk (.left .RED k sib p) n
  | rightB {c : Color} {k : Int} {sib : RBNode} {p : Path} {n : Nat} :
      Balanced sib c n → PathOk p (n + 1) → PathOk (.right .BLACK sib k p) n
  | rightR {k : Int} {sib : RBNode} {p : Path} {n : Nat} :
      Balanced sib .BLACK n → PathOk p n → headBlack p → PathOk (.right .RED sib k p) n

/-- The keys contributed by a context strictly to the left of its hole. -/
def pLK : Path → List Int
  | .root => []
  | .left _ _ _ p => pLK p
  | .right _ sib k p => pLK p ++ inKeys sib ++ [k]

/-- The keys contributed by a context strictly to the right of its hole. -/
def pRK : Path → List Int
  | .root => []
  | .left _ k sib p => k :: inKeys sib ++ pRK p
  | .right _ _ _ p => pRK p

/-- The well-formedness invariant that `runOps` maintains: the tree is
balanced with a BLACK root and its inorder key sequence is sorted. -/
def WFT (t : RBNode) : Prop :=
  (∃ n, Balanced t .BLACK n) ∧ (inKeys t).Sorted (· ≤ ·)

/-- All entries of the list are equal (to the head, if any). -/
def constList : List Nat → Bool
  | [] => true
  | x :: xs => xs.all fun y => y == x

/-- Property 4 of the spec as a Boolean check: at every node of the tree,
all root-to-sentinel paths of its subtree pass through the same number of
BLACK nodes. -/
def blackBalancedB (t : RBNode) : Bool :=
  (subtreesL t).all fun s => constList (pbcounts s)

/-! ## Basic lemmas about contexts and key sequences -/

theorem plug_appendP (a : Path) : ∀ (q : Path) (t : RBNode),
    plug (appendP a q) t = plug q (plug a t) := by
  induction a with
  | root => intro q t; rfl
  | left c k sib p ih => intro q t; simp [appendP, plug, ih]
  | right c sib k p ih => intro q t; simp [appendP, plug, ih]

theorem inKeys_plug (p : Path) : ∀ t, inKeys (plug p t) = pLK p ++ inKeys t ++ pRK p := by
  induction p with
  | root => intro t; simp [plug, pLK, pRK]
  | left c k sib p ih => intro t; simp [plug, pLK, pRK, ih, inKeys]
  | right c sib k p ih => intro t; simp [plug, pLK, pRK, ih, inKeys]

theorem pLK_appendP (a : Path) : ∀ q, pLK (appendP a q) = pLK q ++ pLK a := by
  induction a with
  | root => intro q; simp [appendP, pLK]
  | left c k sib p ih => intro q; simp [appendP, pLK, ih]
  | right c sib k p ih => intro q; simp [appendP, pLK, ih]

theorem pRK_appendP (a : Path) : ∀ q, pRK (appendP a q) = pRK a ++ pRK q := by
  induction a with
  | root => intro q; simp [appendP, pRK]
  | left c k sib p ih => intro q; simp [appendP, pRK, ih]
  | right c sib k p ih => intro q; simp [appendP, pRK, ih]

theorem inKeys_setColor (t : RBNode) (c : Color) : inKeys (t.setColor c) = inKeys t := by
  cases t <;> rfl

theorem setColor_nil (c : Color) : RBNode.nil.setColor c = .nil := rfl

theorem setColor_node (c0 c : Color) (l r : RBNode) (k : Int) :
    (RBNode.node c0 l k r).setColor c = .node c l k r := rfl

theorem rootColor_setColor_black (t : RBNode) : (t.setColor .BLACK).rootColor = .BLACK := by
  cases t <;> rfl

/-! ## Basic lemmas about `Balanced` -/

theorem Balanced.rootColor_eq {t : RBNode} {c : Color} {n : Nat}
    (h : Balanced t c n) : t.rootColor = c := by
  cases h <;> rfl

theorem Balanced.of_rootColor_black {t : RBNode} {c : Color} {n : Nat}
    (h : Balanced t c n) (hb : t.rootColor = .BLACK) : Balanced t .BLACK n := by
  have := h.rootColor_eq; rw [hb] at this; rwa [← this] at h

theorem Balanced.to_rootColor {t : RBNode} {c : Color} {n : Nat}
    (h : Balanced t c n) : Balanced t t.rootColor n := by
  rw [h.rootColor_eq]; exact h

theorem Balanced.setColor_black {t : RBNode} {c : Color} {n : Nat}
    (h : Balanced t c n) : ∃ m, Balanced (t.setColor .BLACK) .BLACK m ∧ n ≤ m ∧ m ≤ n + 1 := by
  cases h with
  | nil => exact ⟨0, .nil, Nat.le_refl _, Nat.le_succ _⟩
  | red hl hr => exact ⟨_ + 1, .black hl hr, Nat.le_succ _, Nat.le_refl _⟩
  | black hl hr => exact ⟨_ + 1, .black hl hr, Nat.le_refl _, Nat.le_succ _⟩

theorem headBlack.headColor {p : Path} (h : headBlack p) : headColor p = .BLACK := by
  cases p with
  | root => exact absurd h (by simp [headBlack])
  | left c k sib q => exact h
  | right c sib k q => exact h

/-- Plugging a balanced subtree of the expected black-height into a
well-formed context yields a balanced tree; the result's root is BLACK
unless the context is empty (in which case the result is the subtree). -/
theorem plug_balanced {p : Path} {n : Nat} (hp : PathOk p n) :
    ∀ {t : RBNode} {c : Color}, Balanced t c n → (c = .RED → headColor p = .BLACK) →
    ∃ c2 m, Balanced (plug p t) c2 m ∧ (p = .root → c2 = c ∧ m = n) ∧
      (p ≠ .root → c2 = .BLACK) := by
  induction hp with
  | root n =>
    intro t c ht _
    exact ⟨c, n, ht, fun _ => ⟨rfl, rfl⟩, fun h => absurd rfl h⟩
  | @leftB c k sib p n hsib hp ih =>
    intro t ct ht _
    have hnode : Balanced (.node .BLACK t k sib) .BLACK (n + 1) := .black ht hsib
    obtain ⟨c2, m, hb, hroot, hnroot⟩ := ih hnode (by intro h; cases h)
    refine ⟨c2, m, hb, ?_, ?_⟩
    · intro h; cases h
    · intro _
      by_cases hr : p = .root
      · subst hr; exact ((hroot rfl).1)
      · exact hnroot hr
  | @leftR k sib p n hsib hp hhb ih =>
    intro t ct ht hcond
    have hct : ct = .BLACK := by
      cases ct with
      | BLACK => rfl
      | RED => exact absurd (hcond rfl) (by simp [headColor])
    subst hct
    have hnode : Balanced (.node .RED t k sib) .RED n := .red ht hsib
    obtain ⟨c2, m, hb, hroot, hnroot⟩ := ih hnode (fun _ => hhb.headColor)
    have hpnr : p ≠ .root := by
      intro h; subst h; exact hhb.elim
    refine ⟨c2, m, hb, ?_, fun _ => hnroot hpnr⟩
    intro h; cases h
  | @rightB c k sib p n hsib hp ih =>
    intro t ct ht _
    have hnode : Balanced (.node .BLACK sib k t) .BLACK (n + 1) := .black hsib ht
    obtain ⟨c2, m, hb, hroot, hnroot⟩ := ih hnode (by intro h; cases h)
    refine ⟨c2, m, hb, ?_, ?_⟩
    · intro h; cases h
    · intro _
      by_cases hr : p = .root
      · subst hr; exact ((hroot rfl).1)
      · exact hnroot hr
  | @rightR k sib p n hsib hp hhb ih =>
    intro t ct ht hcond
    have hct : ct = .BLACK := by
      cases ct with
      | BLACK => rfl
      | RED => exact absurd (hcond rfl) (by simp [headColor])
    subst hct
    have hnode : Balanced (.node .RED sib k t) .RED n := .red hsib ht
    obtain ⟨c2, m, hb, hroot, hnroot⟩ := ih hnode (fun _ => hhb.headColor)
    have hpnr : p ≠ .root := by
      intro h; subst h; exact hhb.elim
    refine ⟨c2, m, hb, ?_, fun _ => hnroot hpnr⟩
    intro h; cases h

theorem inKeys_rotate_left (t : RBNode) : inKeys (rb_rotate_left t) = inKeys t := by
  cases t with
  | nil => rfl
  | node c l k r =>
    cases r with
    | nil => rfl
    | node cy b ky cc => simp [rb_rotate_left, inKeys]

theorem inKeys_rotate_right (t : RBNode) : inKeys (rb_rotate_right t) = inKeys t := by
  cases t with
  | nil => rfl
  | node c l k r =>
    cases l with
    | nil => rfl
    | node cx a kx b => simp [rb_rotate_right, inKeys]

/-- Extract sortedness of a middle segment. -/
theorem sorted_of_middle {A M B : List Int} (h : (A ++ M ++ B).Sorted (· ≤ ·)) :
    M.Sorted (· ≤ ·) := by
  have hsub : M.Sublist (A ++ M ++ B) := by
    rw [List.append_assoc]
    exact ((List.sublist_append_left M B).trans (List.sublist_append_right A (M ++ B)))
  exact List.Pairwise.sublist hsub h

/-- The visit order of `insFixLoop` is the context around the argument
subtree: the fixup only recolors and rotates, both of which preserve the
inorder key sequence. -/
theorem insFixLoop_keys : ∀ (p : Path) (z : RBNode),
    inKeys (insFixLoop p z) = pLK p ++ inKeys z ++ pRK p := by
  intro p z
  induction p, z using insFixLoop.induct with
  | case1 z => simp [insFixLoop, pLK, pRK]
  | case2 pk ps pp z => simp [insFixLoop, inKeys_plug, inKeys, pLK, pRK]
  | case3 ps pk pp z => simp [insFixLoop, inKeys_plug, inKeys, pLK, pRK]
  | case4 pk ps z =>
    simp [insFixLoop, plug, inKeys, pLK, pRK]
  | case5 pk ps z gc gk gpp ul uk ur ih =>
    simp only [insFixLoop, ih, inKeys, pLK, pRK]
    simp [inKeys, List.append_assoc]
  | case6 pk ps z gc gk gpp u hu =>
    simp [insFixLoop, inKeys_plug, inKeys_rotate_right, inKeys, pLK, pRK]
  | case7 pk ps z gc gk gpp ul uk ur ih =>
    simp only [insFixLoop, ih, inKeys, pLK, pRK]
    simp [inKeys, List.append_assoc]
  | case8 pk ps z gc gk gpp u hu =>
    simp [insFixLoop, inKeys_plug, inKeys_rotate_left, inKeys_rotate_right,
      inKeys_setColor, inKeys, pLK, pRK, List.append_assoc]
  | case9 ps pk z =>
    simp [insFixLoop, plug, inKeys, pLK, pRK]
  | case10 ps pk z gc gk gpp ul uk ur ih =>
    simp only [insFixLoop, ih, inKeys, pLK, pRK]
    simp [inKeys, List.append_assoc]
  | case11 ps pk z gc gk gpp u hu =>
    simp [insFixLoop, inKeys_plug, inKeys_rotate_left, inKeys_rotate_right,
      inKeys_setColor, inKeys, pLK, pRK, List.append_assoc]
  | case12 ps pk z gc gk gpp ul uk ur ih =>
    simp only [insFixLoop, ih, inKeys, pLK, pRK]
    simp [inKeys, List.append_assoc]
  | case13 ps pk z gc gk gpp u hu =>
    simp [insFixLoop, inKeys_plug, inKeys_rotate_left, inKeys, pLK, pRK,
      List.append_assoc]

/-- The descent of `rb_insert_node` refines the key sequence: the context it
returns carries exactly the keys of the tree around the (empty) hole. -/
theorem insDescend_keys_flat (t : RBNode) (k : Int) : ∀ p : Path,
    pLK (insDescend t k p) ++ pRK (insDescend t k p) = pLK p ++ inKeys t ++ pRK p := by
  induction t with
  | nil => intro p; simp [insDescend, inKeys]
  | node c l x r ihl ihr =>
    intro p
    by_cases h : k < x
    · simp only [insDescend, if_pos h]
      rw [ihl (.left c x r p)]
      simp [pLK, pRK, inKeys, List.append_assoc]
    · simp only [insDescend, if_neg h]
      rw [ihr (.right c l x p)]
      simp [pLK, pRK, inKeys, List.append_assoc]

/-- Bound propagation along the insert descent: starting from a context
whose left keys are `≤ k` and right keys are `≥ k`, a sorted tree keeps the
property at the final context. -/
theorem insDescend_keys_bounds (t : RBNode) (k : Int) : ∀ p : Path,
    (∀ a ∈ pLK p, a ≤ k) → (∀ b ∈ pRK p, k ≤ b) →
    (pLK p ++ inKeys t ++ pRK p).Sorted (· ≤ ·) →
    (∀ a ∈ pLK (insDescend t k p), a ≤ k) ∧ (∀ b ∈ pRK (insDescend t k p), k ≤ b) := by
  induction t with
  | nil => intro p hL hR _; exact ⟨hL, hR⟩
  | node c l x r ihl ihr =>
    intro p hL hR hs
    have hmid : (inKeys l ++ x :: inKeys r).Sorted (· ≤ ·) := by
      have := sorted_of_middle (A := pLK p) (B := pRK p) (M := inKeys (.node c l x r)) hs
      simpa [inKeys] using this
    obtain ⟨hml, hmr, hcross⟩ := List.pairwise_append.mp hmid
    have hxr : ∀ b ∈ inKeys r, x ≤ b := (List.sorted_cons.mp hmr).1
    have hlx : ∀ a ∈ inKeys l, a ≤ x := fun a ha => hcross a ha x (by simp)
    by_cases h : k < x
    · simp only [insDescend, if_pos h]
      refine ihl (.left c x r p) (by simpa [pLK] using hL) ?_ ?_
      · intro b hb
        simp only [pRK, List.mem_cons, List.mem_append] at hb
        rcases hb with (rfl | hb) | hb
        · exact Int.le_of_lt h
        · exact (Int.le_of_lt h).trans (hxr b hb)
        · exact hR b hb
      · have : pLK p ++ inKeys (.node c l x r) ++ pRK p =
            pLK (.left c x r p) ++ inKeys l ++ pRK (.left c x r p) := by
          simp [pLK, pRK, inKeys, List.append_assoc]
        rw [← this]; exact hs
    · have hxk : x ≤ k := Int.not_lt.mp h
      simp only [insDescend, if_neg h]
      refine ihr (.right c l x p) ?_ (by simpa [pRK] using hR) ?_
      · intro a ha
        simp only [pLK, List.mem_append, List.mem_singleton] at ha
        rcases ha with (ha | ha) | rfl
        · exact hL a ha
        · exact (hlx a ha).trans hxk
        · exact hxk
      · have : pLK p ++ inKeys (.node c l x r) ++ pRK p =
            pLK (.right c l x p) ++ inKeys r ++ pRK (.right c l x p) := by
          simp [pLK, pRK, inKeys, List.append_assoc]
        rw [← this]; exact hs

/-- The insert descent produces a well-formed context for the new leaf
position (black-height 0: both children of the new node are sentinels). -/
theorem insDescend_pathOk (t : RBNode) (k : Int) : ∀ (p : Path) (c : Color) (n : Nat),
    Balanced t c n → PathOk p n → (c = .RED → headBlack p) →
    PathOk (insDescend t k p) 0 := by
  induction t with
  | nil =>
    intro p c n hb hp _
    cases hb; exact hp
  | node tc l x r ihl ihr =>
    intro p c n hb hp hred
    cases hb with
    | red hl hr =>
      by_cases h : k < x
      · simp only [insDescend, if_pos h]
        exact ihl _ _ _ hl (.leftR hr hp (hred rfl)) (by intro hc; cases hc)
      · simp only [insDescend, if_neg h]
        exact ihr _ _ _ hr (.rightR hl hp (hred rfl)) (by intro hc; cases hc)
    | @black _ _ _ cl cr m hl hr =>
      by_cases h : k < x
      · simp only [insDescend, if_pos h]
        exact ihl _ _ _ hl (.leftB hr hp) (fun _ => by simp [headBlack])
      · simp only [insDescend, if_neg h]
        exact ihr _ _ _ hr (.rightB hl hp) (fun _ => by simp [headBlack])

/-- The insert fixup loop restores balance: from a well-formed context and a
RED-rooted balanced subtree (the only possible violation being between the
subtree's root and the head frame), the reassembled tree is balanced. -/
theorem insFixLoop_balanced : ∀ (p : Path) (z : RBNode), ∀ n : Nat,
    PathOk p n → Balanced z .RED n → ∃ c2 m, Balanced (insFixLoop p z) c2 m := by
  intro p z
  induction p, z using insFixLoop.induct with
  | case1 z =>
    intro n _ hz; exact ⟨_, _, hz⟩
  | case2 pk ps pp z =>
    intro n hp hz
    cases hp with
    | leftB hsib hpp =>
      obtain ⟨c2, m, hb, _, _⟩ :=
        plug_balanced hpp (Balanced.black hz hsib) (by intro h; cases h)
      exact ⟨c2, m, by simpa [insFixLoop] using hb⟩
  | case3 ps pk pp z =>
    intro n hp hz
    cases hp with
    | rightB hsib hpp =>
      obtain ⟨c2, m, hb, _, _⟩ :=
        plug_balanced hpp (Balanced.black hsib hz) (by intro h; cases h)
      exact ⟨c2, m, by simpa [insFixLoop] using hb⟩
  | case4 pk ps z =>
    intro n hp _
    cases hp with
    | leftR _ _ hhb => exact hhb.elim
  | case5 pk ps z gc gk gpp ul uk ur ih =>
    intro n hp hz
    cases hp with
    | leftR hsib hpp hhb =>
      have hgc : gc = .BLACK := hhb
      subst hgc
      cases hpp with
      | leftB hu hgpp =>
        cases hu.rootColor_eq
        cases hu with
        | red hul hur =>
          exact ih _ hgpp (.red (.black hz hsib) (.black hul hur))
  | case6 pk ps z gc gk gpp u hu =>
    intro n hp hz
    cases hp with
    | leftR hsib hpp hhb =>
      have hgc : gc = .BLACK := hhb
      subst hgc
      cases hpp with
      | leftB hub hgpp =>
        have hub : Balanced u .BLACK n := by
          refine hub.of_rootColor_black ?_
          cases u with
          | nil => rfl
          | node uc l k r =>
            cases uc with
            | RED => exact absurd (hu l k r rfl) not_false
            | BLACK => rfl
        have hb : Balanced (rb_rotate_right
            (.node .RED (.node .BLACK z pk ps) gk u)) .BLACK (n + 1) := by
          simpa [rb_rotate_right] using Balanced.black hz (Balanced.red hsib hub)
        obtain ⟨c2, m, hres, _, _⟩ := plug_balanced hgpp hb (by intro h; cases h)
        exact ⟨c2, m, by simpa [insFixLoop] using hres⟩
  | case7 pk ps z gc gk gpp ul uk ur ih =>
    intro n hp hz
    cases hp with
    | leftR hsib hpp hhb =>
      have hgc : gc = .BLACK := hhb
      subst hgc
      cases hpp with
      | rightB hu hgpp =>
        cases hu.rootColor_eq
        cases hu with
        | red hul hur =>
          exact ih _ hgpp (.red (.black hul hur) (.black hz hsib))
  | case8 pk ps z gc gk gpp u hu =>
    intro n hp hz
    cases hp with
    | leftR hsib hpp hhb =>
      have hgc : gc = .BLACK := hhb
      subst hgc
      cases hpp with
      | rightB hub hgpp =>
        have hub : Balanced u .BLACK n := by
          refine hub.of_rootColor_black ?_
          cases u with
          | nil => rfl
          | node uc l k r =>
            cases uc with
            | RED => exact absurd (hu l k r rfl) not_false
            | BLACK => rfl
        cases hz with
        | @red zl zr zk _ hzl hzr =>
          have hb : Balanced (rb_rotate_left (.node .RED u gk
              ((rb_rotate_right (.node .RED (.node .RED zl zk zr) pk ps)).setColor .BLACK)))
              .BLACK (n + 1) := by
            simpa [rb_rotate_right, rb_rotate_left, RBNode.setColor] using
              Balanced.black (Balanced.red hub hzl) (Balanced.red hzr hsib)
          obtain ⟨c2, m, hres, _, _⟩ := plug_balanced hgpp hb (by intro h; cases h)
          exact ⟨c2, m, by simpa [insFixLoop] using hres⟩
  | case9 ps pk z =>
    intro n hp _
    cases hp with
    | rightR _ _ hhb => exact hhb.elim
  | case10 ps pk z gc gk gpp ul uk ur ih =>
    intro n hp hz
    cases hp with
    | rightR hsib hpp hhb =>
      have hgc : gc = .BLACK := hhb
      subst hgc
      cases hpp with
      | leftB hu hgpp =>
        cases hu.rootColor_eq
        cases hu with
        | red hul hur =>
          exact ih _ hgpp (.red (.black hsib hz) (.black hul hur))
  | case11 ps pk z gc gk gpp u hu =>
    intro n hp hz
    cases hp with
    | rightR hsib hpp hhb =>
      have hgc : gc = .BLACK := hhb
      subst hgc
      cases hpp with
      | leftB hub hgpp =>
        have hub : Balanced u .BLACK n := by
          refine hub.of_rootColor_black ?_
          cases u with
          | nil => rfl
          | node uc l k r =>
            cases uc with
            | RED => exact absurd (hu l k r rfl) not_false
            | BLACK => rfl
        cases hz with
        | @red zl zr zk _ hzl hzr =>
          have hb : Balanced (rb_rotate_right (.node .RED
              ((rb_rotate_left (.node .RED ps pk (.node .RED zl zk zr))).setColor .BLACK) gk u))
              .BLACK (n + 1) := by
            simpa [rb_rotate_right, rb_rotate_left, RBNode.setColor] using
              Balanced.black (Balanced.red hsib hzl) (Balanced.red hzr hub)
          obtain ⟨c2, m, hres, _, _⟩ := plug_balanced hgpp hb (by intro h; cases h)
          exact ⟨c2, m, by simpa [insFixLoop] using hres⟩
  | case12 ps pk z gc gk gpp ul uk ur ih =>
    intro n hp hz
    cases hp with
    | rightR hsib hpp hhb =>
      have hgc : gc = .BLACK := hhb
      subst hgc
      cases hpp with
      | rightB hu hgpp =>
        cases hu.rootColor_eq
        cases hu with
        | red hul hur =>
          exact ih _ hgpp (.red (.black hul hur) (.black hsib hz))
  | case13 ps pk z gc gk gpp u hu =>
    intro n hp hz
    cases hp with
    | rightR hsib hpp hhb =>
      have hgc : gc = .BLACK := hhb
      subst hgc
      cases hpp with
      | rightB hub hgpp =>
        have hub : Balanced u .BLACK n := by
          refine hub.of_rootColor_black ?_
          cases u with
          | nil => rfl
          | node uc l k r =>
            cases uc with
            | RED => exact absurd (hu l k r rfl) not_false
            | BLACK => rfl
        have hb : Balanced (rb_rotate_left
            (.node .RED u gk (.node .BLACK ps pk z))) .BLACK (n + 1) := by
          simpa [rb_rotate_left] using Balanced.black (Balanced.red hub hsib) hz
        obtain ⟨c2, m, hres, _, _⟩ := plug_balanced hgpp hb (by intro h; cases h)
        exact ⟨c2, m, by simpa [insFixLoop] using hres⟩

/-- Inserting `k` splits the old key sequence at the descent position and
puts `k` in the gap (holds for arbitrary trees; no invariant needed). -/
theorem rb_insert_keys (t : RBNode) (k : Int) :
    inKeys (rb_insert_node t k) =
      pLK (insDescend t k .root) ++ k :: pRK (insDescend t k .root) := by
  unfold rb_insert_node rb_fix_insert_violations
  rw [inKeys_setColor, insFixLoop_keys]
  simp [rb_create_node, inKeys]

theorem insDescend_root_flat (t : RBNode) (k : Int) :
    pLK (insDescend t k .root) ++ pRK (insDescend t k .root) = inKeys t := by
  have := insDescend_keys_flat t k .root
  simpa [pLK, pRK] using this

/-- Every insert adds exactly one key (the new `k`), even when `k` is
already present: the key sequences are related by insertion of one element. -/
theorem rb_insert_perm (t : RBNode) (k : Int) :
    (inKeys (rb_insert_node t k)).Perm (k :: inKeys t) := by
  rw [rb_insert_keys, ← insDescend_root_flat t k]
  exact List.perm_middle

theorem rb_insert_length (t : RBNode) (k : Int) :
    (inKeys (rb_insert_node t k)).length = (inKeys t).length + 1 := by
  simpa using (rb_insert_perm t k).length_eq

/-- Sortedness of the inorder keys is preserved by insertion. -/
theorem rb_insert_sorted (t : RBNode) (k : Int)
    (hs : (inKeys t).Sorted (· ≤ ·)) :
    (inKeys (rb_insert_node t k)).Sorted (· ≤ ·) := by
  have hs0 : (pLK Path.root ++ inKeys t ++ pRK Path.root).Sorted (· ≤ ·) := by
    simpa [pLK, pRK] using hs
  obtain ⟨hL, hR⟩ := insDescend_keys_bounds t k .root
    (by simp [pLK]) (by simp [pRK]) hs0
  have hflat := insDescend_root_flat t k
  have hsort : (pLK (insDescend t k .root) ++ pRK (insDescend t k .root)).Sorted (· ≤ ·) := by
    rw [hflat]; exact hs
  obtain ⟨hsl, hsr, hcross⟩ := List.pairwise_append.mp hsort
  rw [rb_insert_keys]
  refine List.pairwise_append.mpr ⟨hsl, ?_, ?_⟩
  · exact List.sorted_cons.mpr ⟨hR, hsr⟩
  · intro a ha b hb
    rcases List.mem_cons.mp hb with rfl | hb
    · exact hL a ha
    · exact (hL a ha).trans (hR b hb)

/-- Insertion preserves the balance invariant. -/
theorem rb_insert_balanced (t : RBNode) (k : Int)
    (h : ∃ n, Balanced t .BLACK n) :
    ∃ n, Balanced (rb_insert_node t k) .BLACK n := by
  obtain ⟨n, hb⟩ := h
  have hq : PathOk (insDescend t k .root) 0 :=
    insDescend_pathOk t k .root .BLACK n hb (.root n) (by intro h; cases h)
  have hz : Balanced (rb_create_node k) .RED 0 := .red .nil .nil
  obtain ⟨c2, m, hloop⟩ := insFixLoop_balanced (insDescend t k .root) (rb_create_node k) 0 hq hz
  obtain ⟨m2, hset, _, _⟩ := hloop.setColor_black
  exact ⟨m2, hset⟩

theorem rb_insert_WFT (t : RBNode) (k : Int) (h : WFT t) : WFT (rb_insert_node t k) :=
  ⟨rb_insert_balanced t k h.1, rb_insert_sorted t k h.2⟩

/-! ## Delete fixup -/

/-- A BLACK-rooted subtree of the expected black-height plugs into a
well-formed context to a balanced BLACK-rooted tree. -/
theorem plug_balanced_black {p : Path} {n : Nat} {t : RBNode}
    (hp : PathOk p n) (ht : Balanced t .BLACK n) :
    ∃ m, Balanced (plug p t) .BLACK m := by
  obtain ⟨c2, m, hb, hroot, hnroot⟩ := plug_balanced hp ht (by intro h; cases h)
  by_cases hr : p = .root
  · exact ⟨m, by rw [← (hroot hr).1]; exact hb⟩
  · exact ⟨m, by rw [← hnroot hr]; exact hb⟩

/-- When `x` is RED the delete-fixup loop exits at once and colors `x`
BLACK. -/
theorem delFixup_red {p : Path} {x : RBNode} (hx : x.rootColor = .RED) :
    delFixup p x = plug p (x.setColor .BLACK) := by
  cases p with
  | root => rfl
  | left pc pk w pp => simp [delFixup, hx]
  | right pc w pk pp => simp [delFixup, hx]

theorem delCase34L_keys (pp : Path) (pc : Color) (pk : Int) (x w : RBNode) :
    inKeys (delCase34L pp pc pk x w) =
      pLK pp ++ inKeys x ++ pk :: inKeys w ++ pRK pp := by
  cases w with
  | nil => simp [delCase34L, inKeys_plug, pLK, pRK, inKeys]
  | node cw wl wk wr =>
    by_cases hc : wr.rootColor = .BLACK
    · cases wl with
      | nil =>
        simp [delCase34L, hc, rb_rotate_right, rb_rotate_left, setColor_nil, setColor_node,
          inKeys_plug, inKeys_setColor, pLK, pRK, inKeys, List.append_assoc]
      | node c1 a1 k1 b1 =>
        cases wr with
        | nil =>
          simp [delCase34L, hc, rb_rotate_right, rb_rotate_left, setColor_nil, setColor_node,
            inKeys_plug, inKeys_setColor, pLK, pRK, inKeys, List.append_assoc]
        | node cr e1 ek e2 =>
          simp [delCase34L, hc, rb_rotate_right, rb_rotate_left, setColor_nil, setColor_node,
            inKeys_plug, inKeys_setColor, pLK, pRK, inKeys, List.append_assoc]
    · have : ∃ e1 ek e2, wr = .node .RED e1 ek e2 := by
        cases wr with
        | nil => exact absurd rfl hc
        | node cr e1 ek e2 =>
          cases cr with
          | RED => exact ⟨e1, ek, e2, rfl⟩
          | BLACK => exact absurd rfl hc
      obtain ⟨e1, ek, e2, rfl⟩ := this
      simp [delCase34L, hc, rb_rotate_left, setColor_nil, setColor_node,
        inKeys_plug, inKeys_setColor, pLK, pRK, inKeys, List.append_assoc]

theorem delCase34R_keys (pp : Path) (pc : Color) (pk : Int) (x w : RBNode) :
    inKeys (delCase34R pp pc pk x w) =
      pLK pp ++ inKeys w ++ pk :: inKeys x ++ pRK pp := by
  cases w with
  | nil => simp [delCase34R, inKeys_plug, pLK, pRK, inKeys]
  | node cw wl wk wr =>
    by_cases hc : wl.rootColor = .BLACK
    · cases wr with
      | nil =>
        simp [delCase34R, hc, rb_rotate_right, rb_rotate_left, setColor_nil, setColor_node,
          inKeys_plug, inKeys_setColor, pLK, pRK, inKeys, List.append_assoc]
      | node c1 a1 k1 b1 =>
        cases wl with
        | nil =>
          simp [delCase34R, hc, rb_rotate_right, rb_rotate_left, setColor_nil, setColor_node,
            inKeys_plug, inKeys_setColor, pLK, pRK, inKeys, List.append_assoc]
        | node cr e1 ek e2 =>
          simp [delCase34R, hc, rb_rotate_right, rb_rotate_left, setColor_nil, setColor_node,
            inKeys_plug, inKeys_setColor, pLK, pRK, inKeys, List.append_assoc]
    · have : ∃ e1 ek e2, wl = .node .RED e1 ek e2 := by
        cases wl with
        | nil => exact absurd rfl hc
        | node cr e1 ek e2 =>
          cases cr with
          | RED => exact ⟨e1, ek, e2, rfl⟩
          | BLACK => exact absurd rfl hc
      obtain ⟨e1, ek, e2, rfl⟩ := this
      simp [delCase34R, hc, rb_rotate_right, setColor_nil, setColor_node,
        inKeys_plug, inKeys_setColor, pLK, pRK, inKeys, List.append_assoc]

theorem delCase34L_balanced {pp : Path} {pc : Color} {pk : Int} {x w : RBNode}
    {cx : Color} {n : Nat}
    (hx : Balanced x cx n) (hw : Balanced w .BLACK (n + 1))
    (hcond : ¬(w.leftT.rootColor = .BLACK ∧ w.rightT.rootColor = .BLACK))
    (hpp : PathOk pp (n + 1 + (if pc = .BLACK then 1 else 0)))
    (hhead : pc = .RED → headColor pp = .BLACK) :
    ∃ m, Balanced (delCase34L pp pc pk x w) .BLACK m := by
  cases hw with
  | @black wl wr wk cl cr _ hwl hwr =>
  by_cases hc : wr.rootColor = .BLACK
  · have hcr : cr = .BLACK := hwr.rootColor_eq ▸ hc
    have hcl : cl = .RED := by
      cases cl with
      | RED => rfl
      | BLACK =>
        exact absurd ⟨by simpa [RBNode.leftT] using hwl.rootColor_eq,
          by simpa [RBNode.rightT] using hc⟩ hcond
    subst hcr; subst hcl
    cases hwl with
    | @red a1 b1 k1 _ ha1 hb1 =>
      have hs : Balanced (.node pc (.node .BLACK x pk a1) k1
          (.node .BLACK b1 wk wr)) pc (n + 1 + (if pc = .BLACK then 1 else 0)) := by
        cases pc with
        | RED => simpa using Balanced.red (.black hx ha1) (.black hb1 hwr)
        | BLACK => simpa using Balanced.black (.black hx ha1) (.black hb1 hwr)
      obtain ⟨c2, m, hb, hroot, hnroot⟩ := plug_balanced hpp hs hhead
      have : delCase34L pp pc pk x (.node .BLACK (.node .RED a1 k1 b1) wk wr) =
          (plug pp (.node pc (.node .BLACK x pk a1) k1
            (.node .BLACK b1 wk wr))).setColor .BLACK := by
        simp [delCase34L, hc, rb_rotate_right, rb_rotate_left, setColor_node]
      rw [this]
      obtain ⟨m2, hset, _, _⟩ := hb.setColor_black
      exact ⟨m2, hset⟩
  · have hcr : cr = .RED := by
      cases cr with
      | RED => rfl
      | BLACK => exact absurd (hwr.rootColor_eq) hc
    subst hcr
    cases hwr with
    | @red e1 e2 ek _ he1 he2 =>
      have hs : Balanced (.node pc (.node .BLACK x pk wl) wk
          (.node .BLACK e1 ek e2)) pc (n + 1 + (if pc = .BLACK then 1 else 0)) := by
        cases pc with
        | RED => simpa using Balanced.red (.black hx hwl) (.black he1 he2)
        | BLACK => simpa using Balanced.black (.black hx hwl) (.black he1 he2)
      obtain ⟨c2, m, hb, hroot, hnroot⟩ := plug_balanced hpp hs hhead
      have : delCase34L pp pc pk x (.node .BLACK wl wk (.node .RED e1 ek e2)) =
          (plug pp (.node pc (.node .BLACK x pk wl) wk
            (.node .BLACK e1 ek e2))).setColor .BLACK := by
        simp [delCase34L, hc, rb_rotate_left, setColor_node]
      rw [this]
      obtain ⟨m2, hset, _, _⟩ := hb.setColor_black
      exact ⟨m2, hset⟩

theorem delCase34R_balanced {pp : Path} {pc : Color} {pk : Int} {x w : RBNode}
    {cx : Color} {n : Nat}
    (hx : Balanced x cx n) (hw : Balanced w .BLACK (n + 1))
    (hcond : ¬(w.rightT.rootColor = .BLACK ∧ w.leftT.rootColor = .BLACK))
    (hpp : PathOk pp (n + 1 + (if pc = .BLACK then 1 else 0)))
    (hhead : pc = .RED → headColor pp = .BLACK) :
    ∃ m, Balanced (delCase34R pp pc pk x w) .BLACK m := by
  cases hw with
  | @black wl wr wk cl cr _ hwl hwr =>
  by_cases hc : wl.rootColor = .BLACK
  · have hcl : cl = .BLACK := hwl.rootColor_eq ▸ hc
    have hcr : cr = .RED := by
      cases cr with
      | RED => rfl
      | BLACK =>
        exact absurd ⟨by simpa [RBNode.rightT] using hwr.rootColor_eq,
          by simpa [RBNode.leftT] using hc⟩ hcond
    subst hcr; subst hcl
    cases hwr with
    | @red a1 b1 k1 _ ha1 hb1 =>
      have hs : Balanced (.node pc (.node .BLACK wl wk a1) k1
          (.node .BLACK b1 pk x)) pc (n + 1 + (if pc = .BLACK then 1 else 0)) := by
        cases pc with
        | RED => simpa using Balanced.red (.black hwl ha1) (.black hb1 hx)
        | BLACK => simpa using Balanced.black (.black hwl ha1) (.black hb1 hx)
      obtain ⟨c2, m, hb, hroot, hnroot⟩ := plug_balanced hpp hs hhead
      have : delCase34R pp pc pk x (.node .BLACK wl wk (.node .RED a1 k1 b1)) =
          (plug pp (.node pc (.node .BLACK wl wk a1) k1
            (.node .BLACK b1 pk x))).setColor .BLACK := by
        simp [delCase34R, hc, rb_rotate_right, rb_rotate_left, setColor_node]
      rw [this]
      obtain ⟨m2, hset, _, _⟩ := hb.setColor_black
      exact ⟨m2, hset⟩
  · have hcl : cl = .RED := by
      cases cl with
      | RED => rfl
      | BLACK => exact absurd (hwl.rootColor_eq) hc
    subst hcl
    cases hwl with
    | @red e1 e2 ek _ he1 he2 =>
      have hs : Balanced (.node pc (.node .BLACK e1 ek e2) wk
          (.node .BLACK wr pk x)) pc (n + 1 + (if pc = .BLACK then 1 else 0)) := by
        cases pc with
        | RED => simpa using Balanced.red (.black he1 he2) (.black hwr hx)
        | BLACK => simpa using Balanced.black (.black he1 he2) (.black hwr hx)
      obtain ⟨c2, m, hb, hroot, hnroot⟩ := plug_balanced hpp hs hhead
      have : delCase34R pp pc pk x (.node .BLACK (.node .RED e1 ek e2) wk wr) =
          (plug pp (.node pc (.node .BLACK e1 ek e2) wk
            (.node .BLACK wr pk x))).setColor .BLACK := by
        simp [delCase34R, hc, rb_rotate_right, setColor_node]
      rw [this]
      obtain ⟨m2, hset, _, _⟩ := hb.setColor_black
      exact ⟨m2, hset⟩

/-- The delete-fixup loop only recolors and rotates: the inorder key
sequence of the reassembled tree is the context around the argument
subtree (holds for arbitrary states). -/
theorem delFixup_keys (p : Path) : ∀ x : RBNode,
    inKeys (delFixup p x) = pLK p ++ inKeys x ++ pRK p := by
  induction p with
  | root => intro x; simp [delFixup, pLK, pRK, inKeys_setColor]
  | left pc pk w pp ih =>
    intro x
    by_cases hx : x.rootColor = .RED
    · rw [delFixup_red hx]
      simp [inKeys_plug, pLK, pRK, inKeys_setColor]
    · cases w with
      | nil =>
        have hstep : delFixup (.left pc pk .nil pp) x =
            delFixup pp (.node pc x pk .nil) := by
          simp [delFixup, hx]
        rw [hstep, ih]
        simp [inKeys, pLK, pRK]
      | node cw wl wk wr =>
        cases cw with
        | RED =>
          by_cases hbb : wl.leftT.rootColor = .BLACK ∧ wl.rightT.rootColor = .BLACK
          · have hstep : delFixup (.left pc pk (.node .RED wl wk wr) pp) x =
                plug (.left .BLACK wk wr pp) (.node .BLACK x pk (wl.setColor .RED)) := by
              simp [delFixup, hx, hbb]
            rw [hstep]
            simp [inKeys_plug, pLK, pRK, inKeys, inKeys_setColor, List.append_assoc]
          · have hstep : delFixup (.left pc pk (.node .RED wl wk wr) pp) x =
                delCase34L (.left .BLACK wk wr pp) .RED pk x wl := by
              simp [delFixup, hx, hbb]
            rw [hstep, delCase34L_keys]
            simp [pLK, pRK, inKeys, List.append_assoc]
        | BLACK =>
          by_cases hbb : wl.rootColor = .BLACK ∧ wr.rootColor = .BLACK
          · have hstep : delFixup (.left pc pk (.node .BLACK wl wk wr) pp) x =
                delFixup pp (.node pc x pk (.node .RED wl wk wr)) := by
              simp [delFixup, hx, hbb]
            rw [hstep, ih]
            simp [inKeys, pLK, pRK, List.append_assoc]
          · have hstep : delFixup (.left pc pk (.node .BLACK wl wk wr) pp) x =
                delCase34L pp pc pk x (.node .BLACK wl wk wr) := by
              simp [delFixup, hx, hbb]
            rw [hstep, delCase34L_keys]
            simp [pLK, pRK, inKeys, List.append_assoc]
  | right pc w pk pp ih =>
    intro x
    by_cases hx : x.rootColor = .RED
    · rw [delFixup_red hx]
      simp [inKeys_plug, pLK, pRK, inKeys_setColor]
    · cases w with
      | nil =>
        have hstep : delFixup (.right pc .nil pk pp) x =
            delFixup pp (.node pc .nil pk x) := by
          simp [delFixup, hx]
        rw [hstep, ih]
        simp [inKeys, pLK, pRK]
      | node cw wl wk wr =>
        cases cw with
        | RED =>
          by_cases hbb : wr.leftT.rootColor = .BLACK ∧ wr.rightT.rootColor = .BLACK
          · have hstep : delFixup (.right pc (.node .RED wl wk wr) pk pp) x =
                plug (.right .BLACK wl wk pp) (.node .BLACK (wr.setColor .RED) pk x) := by
              simp [delFixup, hx, hbb]
            rw [hstep]
            simp [inKeys_plug, pLK, pRK, inKeys, inKeys_setColor, List.append_assoc]
          · have hstep : delFixup (.right pc (.node .RED wl wk wr) pk pp) x =
                delCase34R (.right .BLACK wl wk pp) .RED pk x wr := by
              simp [delFixup, hx, hbb]
            rw [hstep, delCase34R_keys]
            simp [pLK, pRK, inKeys, List.append_assoc]
        | BLACK =>
          by_cases hbb : wr.rootColor = .BLACK ∧ wl.rootColor = .BLACK
          · have hstep : delFixup (.right pc (.node .BLACK wl wk wr) pk pp) x =
                delFixup pp (.node pc (.node .RED wl wk wr) pk x) := by
              simp [delFixup, hx, hbb]
            rw [hstep, ih]
            simp [inKeys, pLK, pRK, List.append_assoc]
          · have hstep : delFixup (.right pc (.node .BLACK wl wk wr) pk pp) x =
                delCase34R pp pc pk x (.node .BLACK wl wk wr) := by
              simp [delFixup, hx, hbb]
            rw [hstep, delCase34R_keys]
            simp [pLK, pRK, inKeys, List.append_assoc]

/-- The delete-fixup loop restores balance: if the context expects black
height `n + 1` but the subtree `x` only provides `n` (the "extra black" on
`x`), the reassembled tree is balanced with a BLACK root. -/
theorem delFixup_balanced (p : Path) : ∀ (x : RBNode) (c : Color) (n : Nat),
    PathOk p (n + 1) → Balanced x c n →
    ∃ m, Balanced (delFixup p x) .BLACK m := by
  induction p with
  | root =>
    intro x c n _ hx
    obtain ⟨m, hset, _, _⟩ := hx.setColor_black
    exact ⟨m, by simpa [delFixup] using hset⟩
  | left pc pk w pp ih =>
    intro x c n hp hx
    by_cases hxr : x.rootColor = .RED
    · rw [delFixup_red hxr]
      have hc : c = .RED := hxr ▸ hx.rootColor_eq.symm
      subst hc
      cases hx with
      | @red xl xr xk _ hxl hxr2 =>
        exact plug_balanced_black hp (by simpa [setColor_node] using Balanced.black hxl hxr2)
    · cases w with
      | nil =>
        cases hp with
        | leftB hsib _ => cases hsib
        | leftR hsib _ _ => cases hsib
      | node cw wl wk wr =>
        cases cw with
        | RED =>
          cases hp with
          | leftR hw _ _ => exact absurd hw.rootColor_eq (by simp [RBNode.rootColor])
          | leftB hw hpp =>
            cases hw with
            | @red _ _ _ _ hwl hwr =>
              by_cases hbb : wl.leftT.rootColor = .BLACK ∧ wl.rightT.rootColor = .BLACK
              · have hstep : delFixup (.left .BLACK pk (.node .RED wl wk wr) pp) x =
                    plug (.left .BLACK wk wr pp) (.node .BLACK x pk (wl.setColor .RED)) := by
                  simp [delFixup, hxr, hbb]
                rw [hstep]
                cases hwl with
                | @black g1 g2 gk1 c1 c2 _ hg1 hg2 =>
                  have hc1 : c1 = .BLACK := hg1.rootColor_eq ▸
                    (by simpa [RBNode.leftT] using hbb.1)
                  have hc2 : c2 = .BLACK := hg2.rootColor_eq ▸
                    (by simpa [RBNode.rightT] using hbb.2)
                  subst hc1; subst hc2
                  refine plug_balanced_black (PathOk.leftB hwr hpp) ?_
                  simpa [setColor_node] using
                    Balanced.black hx (Balanced.red hg1 hg2)
              · have hstep : delFixup (.left .BLACK pk (.node .RED wl wk wr) pp) x =
                    delCase34L (.left .BLACK wk wr pp) .RED pk x wl := by
                  simp [delFixup, hxr, hbb]
                rw [hstep]
                exact delCase34L_balanced hx hwl hbb
                  (by simpa using PathOk.leftB hwr hpp) (fun _ => rfl)
        | BLACK =>
          have hcase :
              Balanced (.node .BLACK wl wk wr) .BLACK (n + 1) ∧
              PathOk pp (n + 1 + (if pc = .BLACK then 1 else 0)) ∧
              (pc = .RED → headColor pp = .BLACK) := by
            cases hp with
            | leftB hw hpp =>
              exact ⟨hw.of_rootColor_black rfl, by simpa using hpp, by intro h; cases h⟩
            | leftR hw hpp hhb =>
              exact ⟨hw, by simpa using hpp, fun _ => hhb.headColor⟩
          obtain ⟨hwB, hppB, hheadB⟩ := hcase
          by_cases hbb : wl.rootColor = .BLACK ∧ wr.rootColor = .BLACK
          · have hstep : delFixup (.left pc pk (.node .BLACK wl wk wr) pp) x =
                delFixup pp (.node pc x pk (.node .RED wl wk wr)) := by
              simp [delFixup, hxr, hbb]
            rw [hstep]
            cases hwB with
            | @black _ _ _ cl cr _ hwl hwr =>
              have hcl : cl = .BLACK := hwl.rootColor_eq ▸ hbb.1
              have hcr : cr = .BLACK := hwr.rootColor_eq ▸ hbb.2
              subst hcl; subst hcr
              have hredw : Balanced (.node .RED wl wk wr) .RED n := .red hwl hwr
              cases pc with
              | BLACK =>
                exact ih (.node .BLACK x pk (.node .RED wl wk wr)) .BLACK (n + 1)
                  (by simpa using hppB) (.black hx hredw)
              | RED =>
                rw [delFixup_red (by simp [RBNode.rootColor])]
                refine plug_balanced_black (by simpa using hppB) ?_
                simpa [setColor_node] using Balanced.black hx hredw
          · have hstep : delFixup (.left pc pk (.node .BLACK wl wk wr) pp) x =
                delCase34L pp pc pk x (.node .BLACK wl wk wr) := by
              simp [delFixup, hxr, hbb]
            rw [hstep]
            refine delCase34L_balanced hx hwB ?_ hppB hheadB
            simpa [RBNode.leftT, RBNode.rightT] using hbb
  | right pc w pk pp ih =>
    intro x c n hp hx
    by_cases hxr : x.rootColor = .RED
    · rw [delFixup_red hxr]
      have hc : c = .RED := hxr ▸ hx.rootColor_eq.symm
      subst hc
      cases hx with
      | @red xl xr xk _ hxl hxr2 =>
        exact plug_balanced_black hp (by simpa [setColor_node] using Balanced.black hxl hxr2)
    · cases w with
      | nil =>
        cases hp with
        | rightB hsib _ => cases hsib
        | rightR hsib _ _ => cases hsib
      | node cw wl wk wr =>
        cases cw with
        | RED =>
          cases hp with
          | rightR hw _ _ => exact absurd hw.rootColor_eq (by simp [RBNode.rootColor])
          | rightB hw hpp =>
            cases hw with
            | @red _ _ _ _ hwl hwr =>
              by_cases hbb : wr.leftT.rootColor = .BLACK ∧ wr.rightT.rootColor = .BLACK
              · have hstep : delFixup (.right .BLACK (.node .RED wl wk wr) pk pp) x =
                    plug (.right .BLACK wl wk pp) (.node .BLACK (wr.setColor .RED) pk x) := by
                  simp [delFixup, hxr, hbb]
                rw [hstep]
                cases hwr with
                | @black g1 g2 gk1 c1 c2 _ hg1 hg2 =>
                  have hc1 : c1 = .BLACK := hg1.rootColor_eq ▸
                    (by simpa [RBNode.leftT] using hbb.1)
                  have hc2 : c2 = .BLACK := hg2.rootColor_eq ▸
                    (by simpa [RBNode.rightT] using hbb.2)
                  subst hc1; subst hc2
                  refine plug_balanced_black (PathOk.rightB hwl hpp) ?_
                  simpa [setColor_node] using
                    Balanced.black (Balanced.red hg1 hg2) hx
              · have hstep : delFixup (.right .BLACK (.node .RED wl wk wr) pk pp) x =
                    delCase34R (.right .BLACK wl wk pp) .RED pk x wr := by
                  simp [delFixup, hxr, hbb]
                rw [hstep]
                exact delCase34R_balanced hx hwr (fun h => hbb ⟨h.2, h.1⟩)
                  (by simpa using PathOk.rightB hwl hpp) (fun _ => rfl)
        | BLACK =>
          have hcase :
              Balanced (.node .BLACK wl wk wr) .BLACK (n + 1) ∧
              PathOk pp (n + 1 + (if pc = .BLACK then 1 else 0)) ∧
              (pc = .RED → headColor pp = .BLACK) := by
            cases hp with
            | rightB hw hpp =>
              exact ⟨hw.of_rootColor_black rfl, by simpa using hpp, by intro h; cases h⟩
            | rightR hw hpp hhb =>
              exact ⟨hw, by simpa using hpp, fun _ => hhb.headColor⟩
          obtain ⟨hwB, hppB, hheadB⟩ := hcase
          by_cases hbb : wr.rootColor = .BLACK ∧ wl.rootColor = .BLACK
          · have hstep : delFixup (.right pc (.node .BLACK wl wk wr) pk pp) x =
                delFixup pp (.node pc (.node .RED wl wk wr) pk x) := by
              simp [delFixup, hxr, hbb]
            rw [hstep]
            cases hwB with
            | @black _ _ _ cl cr _ hwl hwr =>
              have hcl : cl = .BLACK := hwl.rootColor_eq ▸ hbb.2
              have hcr : cr = .BLACK := hwr.rootColor_eq ▸ hbb.1
              subst hcl; subst hcr
              have hredw : Balanced (.node .RED wl wk wr) .RED n := .red hwl hwr
              cases pc with
              | BLACK =>
                exact ih (.node .BLACK (.node .RED wl wk wr) pk x) .BLACK (n + 1)
                  (by simpa using hppB) (.black hredw hx)
              | RED =>
                rw [delFixup_red (by simp [RBNode.rootColor])]
                refine plug_balanced_black (by simpa using hppB) ?_
                simpa [setColor_node] using Balanced.black hredw hx
          · have hstep : delFixup (.right pc (.node .BLACK wl wk wr) pk pp) x =
                delCase34R pp pc pk x (.node .BLACK wl wk wr) := by
              simp [delFixup, hxr, hbb]
            rw [hstep]
            exact delCase34R_balanced hx hwB hbb hppB hheadB

/-! ## The minimum-splice and the search descent -/

theorem delMinGo_plug (t : RBNode) : ∀ (acc : Path) (yk : Int) (yc : Color)
    (yr : RBNode) (ip : Path), delMinGo t acc = some (yk, yc, yr, ip) →
    plug ip (.node yc .nil yk yr) = plug acc t ∧ pLK ip = pLK acc := by
  induction t with
  | nil => intro acc yk yc yr ip h; simp [delMinGo] at h
  | node c l k r ihl _ =>
    intro acc yk yc yr ip h
    cases l with
    | nil =>
      simp only [delMinGo, Option.some.injEq] at h
      obtain ⟨rfl, rfl, rfl, rfl⟩ := h
      exact ⟨rfl, rfl⟩
    | node lc ll lk lr =>
      simp only [delMinGo] at h
      obtain ⟨hplug, hkeys⟩ := ihl (.left c k r acc) yk yc yr ip h
      exact ⟨hplug.trans rfl, hkeys.trans rfl⟩

theorem delMinGo_isSome (t : RBNode) : t ≠ .nil → ∀ acc, (delMinGo t acc).isSome := by
  induction t with
  | nil => intro h; exact absurd rfl h
  | node c l k r ihl _ =>
    intro _ acc
    cases l with
    | nil => simp [delMinGo]
    | node lc ll lk lr =>
      simpa [delMinGo] using ihl (by intro h; cases h) (.left c k r acc)

theorem delMinGo_appendP (t : RBNode) : ∀ (a q : Path),
    delMinGo t (appendP a q) =
      (delMinGo t a).map (fun s => (s.1, s.2.1, s.2.2.1, appendP s.2.2.2 q)) := by
  induction t with
  | nil => intro a q; simp [delMinGo]
  | node c l k r ihl _ =>
    intro a q
    cases l with
    | nil => simp [delMinGo, appendP]
    | node lc ll lk lr =>
      have := ihl (.left c k r a) q
      simpa [delMinGo, appendP] using this

theorem delMinGo_pathOk (t : RBNode) : ∀ (acc : Path) (c : Color) (b : Nat),
    Balanced t c b → PathOk acc b → (c = .RED → headBlack acc) →
    ∀ yk yc yr ip, delMinGo t acc = some (yk, yc, yr, ip) →
    ∃ cy, Balanced yr cy 0 ∧ PathOk ip (if yc = .BLACK then 1 else 0) ∧
      (yc = .RED → cy = .BLACK) := by
  induction t with
  | nil => intro acc c b _ _ _ yk yc yr ip h; simp [delMinGo] at h
  | node c0 l k r ihl _ =>
    intro acc c b ht hacc hred yk yc yr ip h
    cases l with
    | nil =>
      simp only [delMinGo, Option.some.injEq] at h
      obtain ⟨rfl, rfl, rfl, rfl⟩ := h
      cases ht with
      | red hl hr =>
        cases hl
        exact ⟨.BLACK, hr, by simpa using hacc, fun _ => rfl⟩
      | @black _ _ _ cl cr _ hl hr =>
        cases hl
        exact ⟨cr, hr, by simpa using hacc, by intro h; cases h⟩
    | node lc ll lk lr =>
      simp only [delMinGo] at h
      cases ht with
      | red hl hr =>
        exact ihl (.left .RED k r acc) .BLACK b hl
          (.leftR hr hacc (hred rfl)) (by intro h; cases h) yk yc yr ip h
      | @black _ _ _ cl cr bp hl hr =>
        exact ihl (.left .BLACK k r acc) cl bp hl
          (.leftB hr hacc) (fun _ => by simp [headBlack]) yk yc yr ip h

theorem searchZ_eq (t : RBNode) (k : Int) : ∀ (p q : Path) (zc : Color)
    (l : RBNode) (zk : Int) (r : RBNode),
    searchZ t k p = some (q, zc, l, zk, r) →
    plug q (.node zc l zk r) = plug p t ∧ zk = k := by
  induction t with
  | nil => intro p q zc l zk r h; simp [searchZ] at h
  | node c0 tl x tr ihl ihr =>
    intro p q zc l zk r h
    simp only [searchZ] at h
    by_cases he : k = x
    · rw [if_pos he] at h
      simp only [Option.some.injEq, Prod.mk.injEq] at h
      obtain ⟨rfl, rfl, rfl, rfl, rfl⟩ := h
      exact ⟨rfl, he.symm⟩
    · rw [if_neg he] at h
      by_cases hlt : k < x
      · rw [if_pos hlt] at h
        obtain ⟨hp, hk⟩ := ihl (.left c0 x tr p) q zc l zk r h
        exact ⟨hp.trans rfl, hk⟩
      · rw [if_neg hlt] at h
        obtain ⟨hp, hk⟩ := ihr (.right c0 tl x p) q zc l zk r h
        exact ⟨hp.trans rfl, hk⟩

theorem searchZ_pathOk (t : RBNode) (k : Int) : ∀ (p : Path) (c : Color) (n : Nat),
    Balanced t c n → PathOk p n → (c = .RED → headBlack p) →
    ∀ (q : Path) (zc : Color) (l : RBNode) (zk : Int) (r : RBNode),
    searchZ t k p = some (q, zc, l, zk, r) →
    ∃ m, Balanced (.node zc l zk r) zc m ∧ PathOk q m ∧ (zc = .RED → headBlack q) := by
  induction t with
  | nil => intro p c n _ _ _ q zc l zk r h; simp [searchZ] at h
  | node c0 tl x tr ihl ihr =>
    intro p c n ht hp hred q zc l zk r h
    simp only [searchZ] at h
    by_cases he : k = x
    · rw [if_pos he] at h
      simp only [Option.some.injEq, Prod.mk.injEq] at h
      obtain ⟨rfl, rfl, rfl, rfl, rfl⟩ := h
      have hc : c0 = c := by
        simpa [RBNode.rootColor] using ht.rootColor_eq
      subst hc
      exact ⟨n, ht, hp, hred⟩
    · rw [if_neg he] at h
      by_cases hlt : k < x
      · rw [if_pos hlt] at h
        cases ht with
        | red hl hr =>
          exact ihl (.left .RED x tr p) .BLACK n hl
            (.leftR hr hp (hred rfl)) (by intro hh; cases hh) q zc l zk r h
        | @black _ _ _ cl cr np hl hr =>
          exact ihl (.left .BLACK x tr p) cl np hl
            (.leftB hr hp) (fun _ => by simp [headBlack]) q zc l zk r h
      · rw [if_neg hlt] at h
        cases ht with
        | red hl hr =>
          exact ihr (.right .RED tl x p) .BLACK n hr
            (.rightR hl hp (hred rfl)) (by intro hh; cases hh) q zc l zk r h
        | @black _ _ _ cl cr np hl hr =>
          exact ihr (.right .BLACK tl x p) cr np hr
            (.rightB hl hp) (fun _ => by simp [headBlack]) q zc l zk r h

theorem searchZ_isSome_iff (t : RBNode) (k : Int) : ∀ p : Path,
    (searchZ t k p).isSome ↔ rb_search t k ≠ .nil := by
  induction t with
  | nil => intro p; simp [searchZ, rb_search]
  | node c0 tl x tr ihl ihr =>
    intro p
    by_cases he : k = x
    · simp [searchZ, rb_search, he]
    · by_cases hlt : k < x
      · simpa [searchZ, rb_search, he, hlt] using ihl (.left c0 x tr p)
      · simpa [searchZ, rb_search, he, hlt] using ihr (.right c0 tl x p)

/-! ## Deletion: value-level and invariant-level effect -/

theorem rb_delete_not_found (t : RBNode) (k : Int)
    (h : rb_search t k = .nil) : rb_delete t k = t := by
  have hnone : searchZ t k .root = none := by
    have hiff := searchZ_isSome_iff t k .root
    cases hx : searchZ t k .root with
    | none => rfl
    | some v => exact absurd (hiff.mp (by simp [hx])) (by simp [h])
  simp [rb_delete, hnone]

/-- Deleting a present key removes exactly one copy of it at its position in
the inorder sequence. -/
theorem rb_delete_found_keys (t : RBNode) (k : Int)
    (hfound : rb_search t k ≠ .nil) :
    ∃ A B, inKeys t = A ++ k :: B ∧ inKeys (rb_delete t k) = A ++ B := by
  have hsome : (searchZ t k .root).isSome := (searchZ_isSome_iff t k .root).mpr hfound
  obtain ⟨⟨p, zc, l, zk, r⟩, hs⟩ := Option.isSome_iff_exists.mp hsome
  obtain ⟨hplug, rfl⟩ := searchZ_eq t k .root p zc l zk r hs
  have ht : inKeys t = pLK p ++ inKeys l ++ zk :: inKeys r ++ pRK p := by
    rw [← show plug p (.node zc l zk r) = t from hplug, inKeys_plug]
    simp [inKeys, List.append_assoc]
  cases l with
  | nil =>
    refine ⟨pLK p, inKeys r ++ pRK p, by simpa [inKeys, List.append_assoc] using ht, ?_⟩
    have hres : rb_delete t zk = if zc = .BLACK then delFixup p r else plug p r := by
      simp [rb_delete, hs]
    by_cases hzc : zc = .BLACK
    · rw [hres, if_pos hzc, delFixup_keys]
      simp [List.append_assoc]
    · rw [hres, if_neg hzc, inKeys_plug]
      simp [List.append_assoc]
  | node lc ll lk lr =>
    cases r with
    | nil =>
      refine ⟨pLK p ++ inKeys (.node lc ll lk lr), pRK p,
        by simpa [inKeys, List.append_assoc] using ht, ?_⟩
      have hres : rb_delete t zk =
          if zc = .BLACK then delFixup p (.node lc ll lk lr)
          else plug p (.node lc ll lk lr) := by
        simp [rb_delete, hs]
      by_cases hzc : zc = .BLACK
      · rw [hres, if_pos hzc, delFixup_keys]
      · rw [hres, if_neg hzc, inKeys_plug]
    | node rc rl rk rr =>
      have hmin : (delMinGo (.node rc rl rk rr) Path.root).isSome :=
        delMinGo_isSome _ (by intro h; cases h) _
      obtain ⟨⟨yk, yc, yr, ip⟩, hm⟩ := Option.isSome_iff_exists.mp hmin
      obtain ⟨hmplug, hmkeys⟩ := delMinGo_plug _ Path.root yk yc yr ip hm
      have hmp2 : plug ip (.node yc .nil yk yr) = .node rc rl rk rr := hmplug
      have hrkeys : inKeys (.node rc rl rk rr) = yk :: (inKeys yr ++ pRK ip) := by
        rw [← hmp2, inKeys_plug]
        simp [inKeys, pLK, show pLK ip = [] from hmkeys]
      have hq1 : pLK (appendP ip (Path.right zc (.node lc ll lk lr) yk p)) =
          pLK p ++ inKeys (.node lc ll lk lr) ++ [yk] := by
        rw [pLK_appendP, show pLK ip = [] from hmkeys]
        simp [pLK]
      have hq2 : pRK (appendP ip (Path.right zc (.node lc ll lk lr) yk p)) =
          pRK ip ++ pRK p := by
        rw [pRK_appendP]
        simp [pRK]
      refine ⟨pLK p ++ inKeys (.node lc ll lk lr),
        yk :: (inKeys yr ++ pRK ip ++ pRK p), ?_, ?_⟩
      · rw [ht, hrkeys]
        simp [List.append_assoc]
      · have hres : rb_delete t zk =
            if yc = .BLACK then
              delFixup (appendP ip (Path.right zc (.node lc ll lk lr) yk p)) yr
            else plug (appendP ip (Path.right zc (.node lc ll lk lr) yk p)) yr := by
          simp [rb_delete, hs, hm]
        by_cases hyc : yc = .BLACK
        · rw [hres, if_pos hyc, delFixup_keys, hq1, hq2]
          simp [List.append_assoc]
        · rw [hres, if_neg hyc, inKeys_plug, hq1, hq2]
          simp [List.append_assoc]

/-- Deletion preserves the balance invariant. -/
theorem rb_delete_balanced (t : RBNode) (k : Int)
    (h : ∃ n, Balanced t .BLACK n) :
    ∃ n, Balanced (rb_delete t k) .BLACK n := by
  obtain ⟨n, hb⟩ := h
  cases hx : searchZ t k Path.root with
  | none => exact ⟨n, by simpa [rb_delete, hx] using hb⟩
  | some v =>
    obtain ⟨p, zc, l, zk, r⟩ := v
    obtain ⟨m, hz, hq, hzr⟩ := searchZ_pathOk t k Path.root .BLACK n hb (.root n)
      (by intro hh; cases hh) p zc l zk r hx
    cases l with
    | nil =>
      cases hz with
      | red hl hr =>
        cases hl
        have hrB : Balanced r .BLACK 0 := hr
        refine ⟨?_, ?_⟩
        · exact (plug_balanced_black hq hrB).choose
        · have := (plug_balanced_black hq hrB).choose_spec
          simpa [rb_delete, hx] using this
      | @black _ _ _ cl cr _ hl hr =>
        cases hl
        obtain ⟨m2, hres⟩ := delFixup_balanced p r cr 0 (by simpa using hq) hr
        exact ⟨m2, by simpa [rb_delete, hx] using hres⟩
    | node lc ll lk lr =>
      cases r with
      | nil =>
        cases hz with
        | red hl hr =>
          cases hr
          have hlB : Balanced (.node lc ll lk lr) .BLACK 0 := hl
          obtain ⟨m2, hres⟩ := plug_balanced_black hq hlB
          exact ⟨m2, by simpa [rb_delete, hx] using hres⟩
        | @black _ _ _ cl cr _ hl hr =>
          cases hr
          obtain ⟨m2, hres⟩ := delFixup_balanced p (.node lc ll lk lr) cl 0
            (by simpa using hq) hl
          exact ⟨m2, by simpa [rb_delete, hx] using hres⟩
      | node rc rl rk rr =>
        have hmin : (delMinGo (.node rc rl rk rr) Path.root).isSome :=
          delMinGo_isSome _ (by intro hh; cases hh) _
        obtain ⟨⟨yk, yc, yr, ip⟩, hm⟩ := Option.isSome_iff_exists.mp hmin
        -- facts about the located node's children
        have hzfacts : ∃ bp,
            Balanced (RBNode.node lc ll lk lr) (RBNode.node lc ll lk lr).rootColor bp ∧
            Balanced (RBNode.node rc rl rk rr) (RBNode.node rc rl rk rr).rootColor bp ∧
            m = bp + (if zc = .BLACK then 1 else 0) ∧
            (zc = .RED → (RBNode.node lc ll lk lr).rootColor = .BLACK ∧
              (RBNode.node rc rl rk rr).rootColor = .BLACK) := by
          cases hz with
          | red hl hr =>
            exact ⟨_, hl.to_rootColor, hr.to_rootColor, by simp,
              fun _ => ⟨hl.rootColor_eq, hr.rootColor_eq⟩⟩
          | @black _ _ _ cl cr _ hl hr =>
            exact ⟨_, hl.to_rootColor, hr.to_rootColor, by simp,
              by intro hh; cases hh⟩
        obtain ⟨bp, hL, hR, hm2, hzred⟩ := hzfacts
        -- well-formed context for the minimum splice
        have hf : PathOk (Path.right zc (.node lc ll lk lr) yk p) bp := by
          by_cases hzc : zc = .BLACK
          · subst hzc
            exact .rightB hL (by rw [hm2] at hq; simpa using hq)
          · have hzc2 : zc = .RED := by
              cases zc with
              | RED => rfl
              | BLACK => exact absurd rfl hzc
            subst hzc2
            have := (hzred rfl).1
            rw [this] at hL
            exact .rightR hL (by rw [hm2] at hq; simpa using hq) (hzr rfl)
        have hm3 : delMinGo (.node rc rl rk rr)
            (Path.right zc (.node lc ll lk lr) yk p) =
            some (yk, yc, yr, appendP ip (Path.right zc (.node lc ll lk lr) yk p)) := by
          have := delMinGo_appendP (.node rc rl rk rr) Path.root
            (Path.right zc (.node lc ll lk lr) yk p)
          rw [show appendP Path.root (Path.right zc (.node lc ll lk lr) yk p) =
            Path.right zc (.node lc ll lk lr) yk p from rfl] at this
          rw [this, hm]
          rfl
        obtain ⟨cy, hyr, hip, hycy⟩ := delMinGo_pathOk (.node rc rl rk rr)
          (Path.right zc (.node lc ll lk lr) yk p) (RBNode.node rc rl rk rr).rootColor bp
          hR hf
          (by
            intro hh
            have h2 : zc = .BLACK := by
              cases zc with
              | BLACK => rfl
              | RED =>
                have hb2 := (hzred rfl).2
                rw [hh] at hb2
                cases hb2
            simp [headBlack, h2])
          yk yc yr _ hm3
        by_cases hyc : yc = .BLACK
        · subst hyc
          obtain ⟨m2, hres⟩ := delFixup_balanced _ yr cy 0 (by simpa using hip) hyr
          exact ⟨m2, by simpa [rb_delete, hx, hm] using hres⟩
        · have hyc2 : yc = .RED := by
            cases yc with
            | RED => rfl
            | BLACK => exact absurd rfl hyc
          subst hyc2
          have hcy : cy = .BLACK := hycy rfl
          rw [hcy] at hyr
          obtain ⟨m2, hres⟩ := plug_balanced_black (by simpa [hyc] using hip) hyr
          exact ⟨m2, by simpa [rb_delete, hx, hm] using hres⟩

/-- Deletion preserves sortedness of the inorder keys. -/
theorem rb_delete_sorted (t : RBNode) (k : Int)
    (hs : (inKeys t).Sorted (· ≤ ·)) :
    (inKeys (rb_delete t k)).Sorted (· ≤ ·) := by
  by_cases hf : rb_search t k = .nil
  · rwa [rb_delete_not_found t k hf]
  · obtain ⟨A, B, hold, hnew⟩ := rb_delete_found_keys t k hf
    rw [hnew]
    rw [hold] at hs
    have hsub : (A ++ B).Sublist (A ++ k :: B) :=
      List.Sublist.append_left (List.sublist_cons_self k B) A
    exact List.Pairwise.sublist hsub hs

theorem rb_delete_WFT (t : RBNode) (k : Int) (h : WFT t) : WFT (rb_delete t k) :=
  ⟨rb_delete_balanced t k h.1, rb_delete_sorted t k h.2⟩

/-! ## Search as membership, and runs of operation sequences -/

theorem rb_search_key (t : RBNode) (k : Int) :
    rb_search t k = .nil ∨ ∃ c l r, rb_search t k = .node c l k r := by
  induction t with
  | nil => exact Or.inl rfl
  | node c0 tl x tr ihl ihr =>
    by_cases he : k = x
    · subst he; exact Or.inr ⟨c0, tl, tr, by simp [rb_search]⟩
    · by_cases hlt : k < x
      · simpa [rb_search, he, hlt] using ihl
      · simpa [rb_search, he, hlt] using ihr

theorem rb_search_nil_iff (t : RBNode) (k : Int)
    (hs : (inKeys t).Sorted (· ≤ ·)) : rb_search t k = .nil ↔ k ∉ inKeys t := by
  induction t with
  | nil => simp [rb_search, inKeys]
  | node c0 tl x tr ihl ihr =>
    have hmid := hs
    simp only [inKeys] at hmid
    obtain ⟨hml, hmr, hcross⟩ := List.pairwise_append.mp hmid
    have hxr : ∀ b ∈ inKeys tr, x ≤ b := (List.sorted_cons.mp hmr).1
    have hlx : ∀ a ∈ inKeys tl, a ≤ x := fun a ha => hcross a ha x (by simp)
    by_cases he : k = x
    · subst he
      simp [rb_search, inKeys]
    · by_cases hlt : k < x
      · rw [show rb_search (.node c0 tl x tr) k = rb_search tl k by
          simp [rb_search, he, hlt]]
        rw [ihl hml]
        simp only [inKeys, List.mem_append, List.mem_cons]
        constructor
        · intro h hk
          rcases hk with hk | hk | hk
          · exact h hk
          · exact he hk
          · exact absurd (hxr k hk) (by omega)
        · intro h hk
          exact h (Or.inl hk)
      · rw [show rb_search (.node c0 tl x tr) k = rb_search tr k by
          simp [rb_search, he, hlt]]
        rw [ihr (List.sorted_cons.mp hmr).2]
        simp only [inKeys, List.mem_append, List.mem_cons]
        constructor
        · intro h hk
          rcases hk with hk | hk | hk
          · exact absurd (hlx k hk) (by omega)
          · exact he hk
          · exact h hk
        · intro h hk
          exact h (Or.inr (Or.inr hk))

theorem step_WFT (t : RBNode) (op : Op) (h : WFT t) : WFT (step t op) := by
  cases op with
  | ins k => exact rb_insert_WFT t k h
  | del k => exact rb_delete_WFT t k h

theorem foldl_step_WFT (ops : List Op) : ∀ t : RBNode, WFT t →
    WFT (List.foldl step t ops) := by
  induction ops with
  | nil => intro t h; exact h
  | cons op ops ih => intro t h; exact ih (step t op) (step_WFT t op h)

theorem WFT_nil : WFT RBNode.nil :=
  ⟨⟨0, .nil⟩, by simp [inKeys]⟩

/-- Every tree reachable from the empty tree by inserts and deletes is
balanced with a BLACK root and has sorted inorder keys. -/
theorem runOps_WFT (ops : List Op) : WFT (runOps ops) :=
  foldl_step_WFT ops .nil WFT_nil

/-- The number of copies of `k` stored in the tree equals the count of the
multiset model. -/
theorem foldl_step_count (k : Int) (ops : List Op) : ∀ t : RBNode, WFT t →
    (inKeys (List.foldl step t ops)).count k =
      List.foldl
        (fun n op =>
          match op with
          | Op.ins j => if j = k then n + 1 else n
          | Op.del j => if j = k then n - 1 else n)
        ((inKeys t).count k) ops := by
  induction ops with
  | nil => intro t _; rfl
  | cons op ops ih =>
    intro t hwf
    rw [List.foldl_cons, List.foldl_cons, ih (step t op) (step_WFT t op hwf)]
    congr 1
    cases op with
    | ins j =>
      have hp := rb_insert_perm t j
      rw [show step t (Op.ins j) = rb_insert_node t j from rfl, hp.count_eq]
      by_cases hj : j = k
      · subst hj; simp [List.count_cons]
      · simp [List.count_cons, hj, Ne.symm hj]
    | del j =>
      rw [show step t (Op.del j) = rb_delete t j from rfl]
      by_cases hf : rb_search t j = .nil
      · rw [rb_delete_not_found t j hf]
        have hnm : j ∉ inKeys t := (rb_search_nil_iff t j hwf.2).mp hf
        by_cases hj : j = k
        · subst hj
          have : (inKeys t).count j = 0 := List.count_eq_zero.mpr hnm
          simp [this]
        · simp [hj]
      · obtain ⟨A, B, hold, hnew⟩ := rb_delete_found_keys t j hf
        rw [hnew, hold]
        by_cases hj : j = k
        · subst hj
          simp [List.count_append, List.count_cons]
        · simp [List.count_append, List.count_cons, hj, Ne.symm hj]

theorem runOps_count (ops : List Op) (k : Int) :
    (inKeys (runOps ops)).count k = modelCount ops k := by
  have := foldl_step_count k ops .nil WFT_nil
  simpa [runOps, modelCount, inKeys] using this

/-! ## From `Balanced` to the five spec properties -/

theorem balanced_noRedRed {t : RBNode} {c : Color} {n : Nat}
    (h : Balanced t c n) : noRedRed t = true := by
  induction h with
  | nil => rfl
  | red hl hr ihl ihr =>
    simp only [noRedRed, hl.rootColor_eq, hr.rootColor_eq, ihl, ihr,
      Bool.and_true, Bool.true_and]
    decide
  | black hl hr ihl ihr =>
    simp [noRedRed, ihl, ihr]

theorem balanced_pbcounts {t : RBNode} {c : Color} {n : Nat}
    (h : Balanced t c n) : ∀ x ∈ pbcounts t, x = n := by
  induction h with
  | nil => intro x hx; simpa [pbcounts] using hx
  | red hl hr ihl ihr =>
    intro x hx
    simp only [pbcounts, List.mem_map, List.mem_append] at hx
    obtain ⟨y, hy | hy, rfl⟩ := hx
    · simp [ihl y hy]
    · simp [ihr y hy]
  | black hl hr ihl ihr =>
    intro x hx
    simp only [pbcounts, List.mem_map, List.mem_append] at hx
    obtain ⟨y, hy | hy, rfl⟩ := hx
    · simp [ihl y hy]
    · simp [ihr y hy]

theorem balanced_subtrees {t : RBNode} {c : Color} {n : Nat}
    (h : Balanced t c n) : ∀ s ∈ subtreesL t, ∃ c2 m, Balanced s c2 m := by
  induction h with
  | nil => intro s hs; simp [subtreesL] at hs
  | @red l r k n hl hr ihl ihr =>
    intro s hs
    simp only [subtreesL, List.mem_cons, List.mem_append] at hs
    rcases hs with rfl | hs | hs
    · exact ⟨_, _, .red hl hr⟩
    · exact ihl s hs
    · exact ihr s hs
  | @black l r k cl cr n hl hr ihl ihr =>
    intro s hs
    simp only [subtreesL, List.mem_cons, List.mem_append] at hs
    rcases hs with rfl | hs | hs
    · exact ⟨_, _, .black hl hr⟩
    · exact ihl s hs
    · exact ihr s hs

theorem sorted_isBSTB (t : RBNode) (hs : (inKeys t).Sorted (· ≤ ·)) :
    isBSTB t = true := by
  induction t with
  | nil => rfl
  | node c0 tl x tr ihl ihr =>
    have hmid := hs
    simp only [inKeys] at hmid
    obtain ⟨hml, hmr, hcross⟩ := List.pairwise_append.mp hmid
    have hxr : ∀ b ∈ inKeys tr, x ≤ b := (List.sorted_cons.mp hmr).1
    have hlx : ∀ a ∈ inKeys tl, a ≤ x := fun a ha => hcross a ha x (by simp)
    simp only [isBSTB, Bool.and_eq_true, List.all_eq_true, decide_eq_true_eq]
    exact ⟨⟨⟨hlx, hxr⟩, ihl hml⟩, ihr (List.sorted_cons.mp hmr).2⟩

theorem balanced_height {t : RBNode} {c : Color} {n : Nat}
    (h : Balanced t c n) :
    rb_height t ≤ 2 * n + (if c = .RED then 1 else 0) := by
  induction h with
  | nil => simp [rb_height]
  | @red l r k n hl hr ihl ihr =>
    have hne : ¬ (Color.BLACK = Color.RED) := by decide
    rw [if_neg hne] at ihl ihr
    simp only [rb_height]
    rw [if_pos trivial]
    omega
  | @black l r k cl cr n hl hr ihl ihr =>
    have h1 : rb_height l ≤ 2 * n + 1 :=
      le_trans ihl (by cases cl <;> simp)
    have h2 : rb_height r ≤ 2 * n + 1 :=
      le_trans ihr (by cases cr <;> simp)
    have hne : ¬ (Color.BLACK = Color.RED) := by decide
    simp only [rb_height, if_neg hne]
    omega

theorem balanced_size {t : RBNode} {c : Color} {n : Nat}
    (h : Balanced t c n) : 2 ^ n ≤ rb_count_nodes t + 1 := by
  induction h with
  | nil => simp [rb_count_nodes]
  | @red l r k n hl hr ihl ihr =>
    simp only [rb_count_nodes]
    omega
  | @black l r k cl cr n hl hr ihl ihr =>
    simp only [rb_count_nodes]
    have e : 2 ^ (n + 1) = 2 ^ n + 2 ^ n := by rw [pow_succ, Nat.mul_two]
    omega

theorem inorder_map_fst (t : RBNode) :
    (rb_traverse_inorder t).map Prod.fst = inKeys t := by
  induction t with
  | nil => rfl
  | node c l k r ihl ihr => simp [rb_traverse_inorder, inKeys, ihl, ihr]

theorem count_nodes_eq_length (t : RBNode) :
    rb_count_nodes t = (inKeys t).length := by
  induction t with
  | nil => rfl
  | node c l k r ihl ihr => simp [rb_count_nodes, inKeys, ihl, ihr]; omega

/-! ## The DFS and BFS loops: search mode and traverse mode -/

theorem tsize_pos (t : RBNode) : 1 ≤ tsize t := by
  cases t <;> simp only [tsize] <;> omega

theorem dfsIterGo_step_found (sv : Int) (c : Color) (l : RBNode) (k : Int)
    (r : RBNode) (rest : List RBNode) (hc : sv ≠ -1 ∧ k = sv) :
    dfsIterGo sv (.node c l k r :: rest) = ([], some (.node c l k r)) := by
  rw [dfsIterGo]
  rw [if_pos hc]

theorem dfsIterGo_step_go (sv : Int) (c : Color) (l : RBNode) (k : Int)
    (r : RBNode) (rest : List RBNode) (hc : ¬ (sv ≠ -1 ∧ k = sv)) :
    dfsIterGo sv (.node c l k r :: rest) =
      (let res := dfsIterGo sv
        ((if l = .nil then [] else [l]) ++ (if r = .nil then [] else [r]) ++ rest)
       if sv = -1 then ((k, c) :: res.1, res.2) else res) := by
  rw [dfsIterGo]
  rw [if_neg hc]

theorem bfsGo_step_found (sv : Int) (c : Color) (l : RBNode) (k : Int)
    (r : RBNode) (rest : List RBNode) (hc : sv ≠ -1 ∧ k = sv) :
    bfsGo sv (.node c l k r :: rest) = ([], some (.node c l k r)) := by
  rw [bfsGo]
  rw [if_pos hc]

theorem bfsGo_step_go (sv : Int) (c : Color) (l : RBNode) (k : Int)
    (r : RBNode) (rest : List RBNode) (hc : ¬ (sv ≠ -1 ∧ k = sv)) :
    bfsGo sv (.node c l k r :: rest) =
      (let res := bfsGo sv
        (rest ++ (if l = .nil then [] else [l]) ++ (if r = .nil then [] else [r]))
       if sv = -1 then ((k, c) :: res.1, res.2) else res) := by
  rw [bfsGo]
  rw [if_neg hc]

theorem wsize_push_left (l r : RBNode) (rest : List RBNode) :
    wsize ((if l = .nil then [] else [l]) ++ (if r = .nil then [] else [r]) ++ rest)
      ≤ tsize l + tsize r + wsize rest := by
  have h1 := tsize_pos l
  have h2 := tsize_pos r
  simp only [wsize, List.map_append, List.sum_append]
  split <;> split <;> simp only [List.map_cons, List.map_nil, List.sum_cons,
    List.sum_nil] <;> omega

theorem wsize_push_right (l r : RBNode) (rest : List RBNode) :
    wsize (rest ++ (if l = .nil then [] else [l]) ++ (if r = .nil then [] else [r]))
      ≤ tsize l + tsize r + wsize rest := by
  have h1 := tsize_pos l
  have h2 := tsize_pos r
  simp only [wsize, List.map_append, List.sum_append]
  split <;> split <;> simp only [List.map_cons, List.map_nil, List.sum_cons,
    List.sum_nil] <;> omega

theorem dfsIterGo_found (sv : Int) : ∀ (st : List RBNode) (x : RBNode),
    (dfsIterGo sv st).2 = some x → x.rootKey = sv ∧ sv ≠ -1 ∧ x ≠ .nil := by
  have H : ∀ (n : Nat) (st : List RBNode), wsize st ≤ n → ∀ x : RBNode,
      (dfsIterGo sv st).2 = some x → x.rootKey = sv ∧ sv ≠ -1 ∧ x ≠ .nil := by
    intro n
    induction n with
    | zero =>
      intro st hst x hx
      match st with
      | [] => rw [dfsIterGo] at hx; exact absurd hx (by simp)
      | y :: rest =>
        exfalso
        have h1 := tsize_pos y
        simp only [wsize, List.map_cons, List.sum_cons] at hst
        omega
    | succ n ih =>
      intro st hst x hx
      match st with
      | [] => rw [dfsIterGo] at hx; exact absurd hx (by simp)
      | .nil :: rest =>
        rw [dfsIterGo] at hx
        refine ih rest ?_ x hx
        simp only [wsize, List.map_cons, List.sum_cons, tsize] at hst
        simp only [wsize]
        omega
      | .node c l k r :: rest =>
        by_cases hc : sv ≠ -1 ∧ k = sv
        · rw [dfsIterGo_step_found sv c l k r rest hc] at hx
          simp only [Option.some.injEq] at hx
          subst hx
          exact ⟨hc.2, hc.1, by simp⟩
        · rw [dfsIterGo_step_go sv c l k r rest hc] at hx
          have hb : wsize ((if l = .nil then [] else [l]) ++
              (if r = .nil then [] else [r]) ++ rest) ≤ n := by
            have := wsize_push_left l r rest
            simp only [wsize, List.map_cons, List.sum_cons, tsize] at hst
            simp only [wsize] at this ⊢
            omega
          by_cases hm : sv = -1
          · rw [if_pos hm] at hx
            exact ih _ hb x hx
          · rw [if_neg hm] at hx
            exact ih _ hb x hx
  intro st x hx
  exact H (wsize st) st le_rfl x hx

theorem bfsGo_found (sv : Int) : ∀ (st : List RBNode) (x : RBNode),
    (bfsGo sv st).2 = some x → x.rootKey = sv ∧ sv ≠ -1 ∧ x ≠ .nil := by
  have H : ∀ (n : Nat) (st : List RBNode), wsize st ≤ n → ∀ x : RBNode,
      (bfsGo sv st).2 = some x → x.rootKey = sv ∧ sv ≠ -1 ∧ x ≠ .nil := by
    intro n
    induction n with
    | zero =>
      intro st hst x hx
      match st with
      | [] => rw [bfsGo] at hx; exact absurd hx (by simp)
      | y :: rest =>
        exfalso
        have h1 := tsize_pos y
        simp only [wsize, List.map_cons, List.sum_cons] at hst
        omega
    | succ n ih =>
      intro st hst x hx
      match st with
      | [] => rw [bfsGo] at hx; exact absurd hx (by simp)
      | .nil :: rest =>
        rw [bfsGo] at hx
        refine ih rest ?_ x hx
        simp only [wsize, List.map_cons, List.sum_cons, tsize] at hst
        simp only [wsize]
        omega
      | .node c l k r :: rest =>
        by_cases hc : sv ≠ -1 ∧ k = sv
        · rw [bfsGo_step_found sv c l k r rest hc] at hx
          simp only [Option.some.injEq] at hx
          subst hx
          exact ⟨hc.2, hc.1, by simp⟩
        · rw [bfsGo_step_go sv c l k r rest hc] at hx
          have hb : wsize (rest ++ (if l = .nil then [] else [l]) ++
              (if r = .nil then [] else [r])) ≤ n := by
            have := wsize_push_right l r rest
            simp only [wsize, List.map_cons, List.sum_cons, tsize] at hst
            simp only [wsize] at this ⊢
            omega
          by_cases hm : sv = -1
          · rw [if_pos hm] at hx
            exact ih _ hb x hx
          · rw [if_neg hm] at hx
            exact ih _ hb x hx
  intro st x hx
  exact H (wsize st) st le_rfl x hx

theorem dfsRec_found (sv : Int) : ∀ (t : RBNode) (x : RBNode),
    (rb_traverse_dfs_recursive t sv).2 = some x →
      x.rootKey = sv ∧ sv ≠ -1 ∧ x ≠ .nil := by
  intro t
  induction t with
  | nil => intro x hx; exact absurd hx (by simp [rb_traverse_dfs_recursive])
  | node c l k r ihl ihr =>
    intro x hx
    rw [rb_traverse_dfs_recursive] at hx
    by_cases hc : sv ≠ -1 ∧ k = sv
    · rw [if_pos hc] at hx
      simp only [Option.some.injEq] at hx
      subst hx
      exact ⟨hc.2, hc.1, by simp⟩
    · rw [if_neg hc] at hx
      simp only at hx
      cases hl2 : (rb_traverse_dfs_recursive l sv).2 with
      | some f =>
        rw [hl2] at hx
        simp only at hx
        exact ihl x (by rw [hl2, hx])
      | none =>
        rw [hl2] at hx
        simp only at hx
        exact ihr x hx

theorem dfsIterGo_traverse : ∀ st : List RBNode,
    dfsIterGo (-1) st = (((st.map rb_traverse_preorder).flatten : List (Int × Color)), none) := by
  have H : ∀ (n : Nat) (st : List RBNode), wsize st ≤ n →
      dfsIterGo (-1) st = (((st.map rb_traverse_preorder).flatten : List (Int × Color)), none) := by
    intro n
    induction n with
    | zero =>
      intro st hst
      match st with
      | [] => rw [dfsIterGo]; rfl
      | y :: rest =>
        exfalso
        have h1 := tsize_pos y
        simp only [wsize, List.map_cons, List.sum_cons] at hst
        omega
    | succ n ih =>
      intro st hst
      match st with
      | [] => rw [dfsIterGo]; rfl
      | .nil :: rest =>
        have hb : wsize rest ≤ n := by
          simp only [wsize, List.map_cons, List.sum_cons, tsize] at hst
          simp only [wsize]
          omega
        rw [dfsIterGo]
        rw [ih rest hb]
        simp [rb_traverse_preorder]
      | .node c l k r :: rest =>
        have hc : ¬ ((-1 : Int) ≠ -1 ∧ k = -1) := by simp
        rw [dfsIterGo_step_go (-1) c l k r rest hc]
        have hb : wsize ((if l = .nil then [] else [l]) ++
            (if r = .nil then [] else [r]) ++ rest) ≤ n := by
          have := wsize_push_left l r rest
          simp only [wsize, List.map_cons, List.sum_cons, tsize] at hst
          simp only [wsize] at this ⊢
          omega
        rw [ih _ hb]
        simp only [if_pos rfl]
        by_cases hl : l = .nil <;> by_cases hr : r = .nil <;>
          simp [hl, hr, rb_traverse_preorder]
  intro st
  exact H (wsize st) st le_rfl

theorem dfsRec_traverse : ∀ t : RBNode,
    rb_traverse_dfs_recursive t (-1) = (rb_traverse_preorder t, none) := by
  intro t
  induction t with
  | nil => rfl
  | node c l k r ihl ihr =>
    rw [rb_traverse_dfs_recursive]
    have hc : ¬ ((-1 : Int) ≠ -1 ∧ k = -1) := by simp
    rw [if_neg hc]
    simp only [ihl, ihr, rb_traverse_preorder]
    simp

theorem dfsIter_found (t : RBNode) (sv : Int) :
    ∀ x, (rb_traverse_dfs_iterative t sv).2 = some x →
      x.rootKey = sv ∧ sv ≠ -1 ∧ x ≠ .nil := by
  intro x hx
  rw [rb_traverse_dfs_iterative] at hx
  by_cases ht : t = .nil
  · rw [if_pos ht] at hx
    exact absurd hx (by simp)
  · rw [if_neg ht] at hx
    exact dfsIterGo_found sv [t] x hx

theorem bfs_found (t : RBNode) (sv : Int) :
    ∀ x, (rb_traverse_bfs t sv).2 = some x →
      x.rootKey = sv ∧ sv ≠ -1 ∧ x ≠ .nil := by
  intro x hx
  rw [rb_traverse_bfs] at hx
  by_cases ht : t = .nil
  · rw [if_pos ht] at hx
    exact absurd hx (by simp)
  · rw [if_neg ht] at hx
    exact bfsGo_found sv [t] x hx

theorem optAll_of_found {o : Option RBNode} {sv : Int}
    (h : ∀ x, o = some x → x.rootKey = sv ∧ sv ≠ -1 ∧ x ≠ .nil) :
    (o.all fun x => decide (x.rootKey = sv) && decide (sv ≠ -1)
      && decide (x ≠ .nil)) = true := by
  cases o with
  | none => rfl
  | some x =>
    obtain ⟨h1, h2, h3⟩ := h x rfl
    simp [Option.all, h1, h2, h3]

theorem none_of_found {o : Option RBNode}
    (h : ∀ x, o = some x → x.rootKey = (-1 : Int) ∧ (-1 : Int) ≠ -1 ∧ x ≠ .nil) :
    o = none := by
  cases o with
  | none => rfl
  | some x => exact absurd (h x rfl).2.1 (by simp)

/-! ## LCA: depth bookkeeping and the candidate predicate -/

theorem subDepths_shift (t : RBNode) : ∀ d : Nat,
    subDepths t d = (subDepths t 0).map (fun q => (q.1, q.2 + d)) := by
  induction t with
  | nil => intro d; rfl
  | node c l k r ihl ihr =>
    intro d
    have hcomp : ∀ (L : List (RBNode × Nat)),
        (L.map (fun q => (q.1, q.2 + 1))).map (fun q => (q.1, q.2 + d))
          = L.map (fun q => (q.1, q.2 + (d + 1))) := by
      intro L
      rw [List.map_map]
      apply List.map_congr_left
      intro a _
      simp only [Function.comp]
      refine congrArg _ ?_
      omega
    simp only [subDepths, List.map_cons, List.map_append]
    rw [ihl (d + 1), ihr (d + 1), ihl 1, ihr 1, hcomp, hcomp]
    simp

theorem subDepths_keys (t : RBNode) : ∀ (d : Nat) (q : RBNode) (e : Nat),
    (q, e) ∈ subDepths t d → ∀ x ∈ inKeys q, x ∈ inKeys t := by
  induction t with
  | nil => intro d q e hq; simp [subDepths] at hq
  | node c l k r ihl ihr =>
    intro d q e hq x hx
    simp only [subDepths, List.mem_cons, List.mem_append, Prod.mk.injEq] at hq
    rcases hq with ⟨rfl, rfl⟩ | hq | hq
    · exact hx
    · have := ihl (d + 1) q e hq x hx
      simp only [inKeys, List.mem_append, List.mem_cons]
      exact Or.inl this
    · have := ihr (d + 1) q e hq x hx
      simp only [inKeys, List.mem_append, List.mem_cons]
      exact Or.inr (Or.inr this)

theorem lcaCandB_props {a b : Int} {q : RBNode} (h : lcaCandB a b q = true) :
    a ∈ inKeys q ∧ b ∈ inKeys q ∧ a ≤ q.rootKey ∧ q.rootKey ≤ b ∧ q ≠ .nil := by
  cases q with
  | nil => simp [lcaCandB] at h
  | node c l k r =>
    simp only [lcaCandB, hasKeyB, Bool.and_eq_true, decide_eq_true_eq,
      List.elem_iff] at h
    exact ⟨h.1.2, h.2, h.1.1.1, h.1.1.2, by simp⟩

theorem lcaCandB_intro {a b : Int} (c : Color) (l : RBNode) (k : Int)
    (r : RBNode) (hak : a ≤ k) (hkb : k ≤ b)
    (ha : a ∈ inKeys (RBNode.node c l k r)) (hb : b ∈ inKeys (RBNode.node c l k r)) :
    lcaCandB a b (.node c l k r) = true := by
  simp only [lcaCandB, hasKeyB, Bool.and_eq_true, decide_eq_true_eq,
    List.elem_iff]
  exact ⟨⟨⟨hak, hkb⟩, ha⟩, hb⟩

theorem lca_deepest (a b : Int) (hab : a ≤ b) : ∀ t : RBNode,
    (inKeys t).Sorted (· < ·) → a ∈ inKeys t → b ∈ inKeys t →
    ∃ d : Nat, (rb_find_lca t a b, d) ∈ subDepths t 0 ∧
      lcaCandB a b (rb_find_lca t a b) = true ∧
      ∀ q ∈ subDepths t 0, lcaCandB a b q.1 = true → q.2 ≤ d := by
  intro t
  induction t with
  | nil => intro _ ha _; simp [inKeys] at ha
  | node c l k r ihl ihr =>
    intro hs ha hb
    have hmid := hs
    simp only [inKeys] at hmid
    obtain ⟨hml, hmr, hcross⟩ := List.pairwise_append.mp hmid
    have hxr : ∀ y ∈ inKeys r, k < y := (List.sorted_cons.mp hmr).1
    have hlx : ∀ x ∈ inKeys l, x < k := fun x hx => hcross x hx k (by simp)
    by_cases hbk : b < k
    · have hak : a < k := lt_of_le_of_lt hab hbk
      have ha2 : a ∈ inKeys l := by
        simp only [inKeys, List.mem_append, List.mem_cons] at ha
        rcases ha with h | h | h
        · exact h
        · omega
        · exact absurd (hxr a h) (by omega)
      have hb2 : b ∈ inKeys l := by
        simp only [inKeys, List.mem_append, List.mem_cons] at hb
        rcases hb with h | h | h
        · exact h
        · omega
        · exact absurd (hxr b h) (by omega)
      obtain ⟨d, hmem, hcand, hdeep⟩ := ihl hml ha2 hb2
      have hfix : rb_find_lca (.node c l k r) a b = rb_find_lca l a b := by
        rw [rb_find_lca]
        rw [if_pos ⟨hak, hbk⟩]
      refine ⟨d + 1, ?_, ?_, ?_⟩
      · rw [hfix]
        simp only [subDepths, List.mem_cons, List.mem_append]
        refine Or.inr (Or.inl ?_)
        rw [subDepths_shift l 1]
        exact List.mem_map.mpr ⟨(rb_find_lca l a b, d), hmem, rfl⟩
      · rw [hfix]; exact hcand
      · intro q hq hqc
        simp only [subDepths, List.mem_cons, List.mem_append] at hq
        rcases hq with rfl | hq | hq
        · simp
        · rw [subDepths_shift l 1] at hq
          obtain ⟨⟨q0, e0⟩, hq0, rfl⟩ := List.mem_map.mp hq
          have := hdeep (q0, e0) hq0 (by simpa using hqc)
          simpa using Nat.add_le_add_right this 1
        · exfalso
          rw [subDepths_shift r 1] at hq
          obtain ⟨⟨q0, e0⟩, hq0, rfl⟩ := List.mem_map.mp hq
          obtain ⟨haq, -, -, -, -⟩ := lcaCandB_props (by simpa using hqc)
          have hina : a ∈ inKeys r := subDepths_keys r 0 q0 e0 hq0 a haq
          exact absurd (hxr a hina) (by omega)
    · by_cases hka : k < a
      · have hkb : k < b := lt_of_lt_of_le hka hab
        have ha2 : a ∈ inKeys r := by
          simp only [inKeys, List.mem_append, List.mem_cons] at ha
          rcases ha with h | h | h
          · exact absurd (hlx a h) (by omega)
          · omega
          · exact h
        have hb2 : b ∈ inKeys r := by
          simp only [inKeys, List.mem_append, List.mem_cons] at hb
          rcases hb with h | h | h
          · exact absurd (hlx b h) (by omega)
          · omega
          · exact h
        obtain ⟨d, hmem, hcand, hdeep⟩ := ihr (List.sorted_cons.mp hmr).2 ha2 hb2
        have hfix : rb_find_lca (.node c l k r) a b = rb_find_lca r a b := by
          rw [rb_find_lca]
          rw [if_neg (by omega)]
          rw [if_pos ⟨hka, hkb⟩]
        refine ⟨d + 1, ?_, ?_, ?_⟩
        · rw [hfix]
          simp only [subDepths, List.mem_cons, List.mem_append]
          refine Or.inr (Or.inr ?_)
          rw [subDepths_shift r 1]
          exact List.mem_map.mpr ⟨(rb_find_lca r a b, d), hmem, rfl⟩
        · rw [hfix]; exact hcand
        · intro q hq hqc
          simp only [subDepths, List.mem_cons, List.mem_append] at hq
          rcases hq with rfl | hq | hq
          · simp
          · exfalso
            rw [subDepths_shift l 1] at hq
            obtain ⟨⟨q0, e0⟩, hq0, rfl⟩ := List.mem_map.mp hq
            obtain ⟨-, hbq, -, -, -⟩ := lcaCandB_props (by simpa using hqc)
            have hinb : b ∈ inKeys l := subDepths_keys l 0 q0 e0 hq0 b hbq
            exact absurd (hlx b hinb) (by omega)
          · rw [subDepths_shift r 1] at hq
            obtain ⟨⟨q0, e0⟩, hq0, rfl⟩ := List.mem_map.mp hq
            have := hdeep (q0, e0) hq0 (by simpa using hqc)
            simpa using Nat.add_le_add_right this 1
      · have hak : a ≤ k := by omega
        have hkb : k ≤ b := by omega
        have hfix : rb_find_lca (.node c l k r) a b = .node c l k r := by
          rw [rb_find_lca]
          rw [if_neg (by omega)]
          rw [if_neg (by omega)]
        refine ⟨0, ?_, ?_, ?_⟩
        · rw [hfix]
          simp [subDepths]
        · rw [hfix]
          exact lcaCandB_intro c l k r hak hkb ha hb
        · intro q hq hqc
          simp only [subDepths, List.mem_cons, List.mem_append] at hq
          rcases hq with rfl | hq | hq
          · simp
          · exfalso
            rw [subDepths_shift l 1] at hq
            obtain ⟨⟨q0, e0⟩, hq0, rfl⟩ := List.mem_map.mp hq
            obtain ⟨-, hbq, -, -, -⟩ := lcaCandB_props (by simpa using hqc)
            have hinb : b ∈ inKeys l := subDepths_keys l 0 q0 e0 hq0 b hbq
            exact absurd (hlx b hinb) (by omega)
          · exfalso
            rw [subDepths_shift r 1] at hq
            obtain ⟨⟨q0, e0⟩, hq0, rfl⟩ := List.mem_map.mp hq
            obtain ⟨haq, -, -, -, -⟩ := lcaCandB_props (by simpa using hqc)
            have hina : a ∈ inKeys r := subDepths_keys r 0 q0 e0 hq0 a haq
            exact absurd (hxr a hina) (by omega)

/-! ## The seven-element sorted-array scenario, evaluated -/

theorem helper_eval7 :
    rb_sorted_array_to_bst_helper [10, 20, 30, 40, 50, 60, 70] 0 6 =
      .node .RED
        (.node .RED (.node .RED .nil 10 .nil) 20 (.node .RED .nil 30 .nil))
        40
        (.node .RED (.node .RED .nil 50 .nil) 60 (.node .RED .nil 70 .nil)) := by
  rw [rb_sorted_array_to_bst_helper]
  norm_num
  rw [rb_sorted_array_to_bst_helper, rb_sorted_array_to_bst_helper]
  norm_num
  rw [rb_sorted_array_to_bst_helper, rb_sorted_array_to_bst_helper,
    rb_sorted_array_to_bst_helper, rb_sorted_array_to_bst_helper]
  norm_num
  rw [rb_sorted_array_to_bst_helper, rb_sorted_array_to_bst_helper,
    rb_sorted_array_to_bst_helper, rb_sorted_array_to_bst_helper,
    rb_sorted_array_to_bst_helper, rb_sorted_array_to_bst_helper,
    rb_sorted_array_to_bst_helper, rb_sorted_array_to_bst_helper]
  norm_num
  decide

/-- A list all of whose entries equal `m` passes the `constList` check. -/
theorem constList_of_const {m : Nat} : ∀ {xs : List Nat},
    (∀ x ∈ xs, x = m) → constList xs = true := by
  intro xs h
  match xs with
  | [] => rfl
  | x :: rest =>
    simp only [constList, List.all_eq_true]
    intro y hy
    have hx : x = m := h x (by simp)
    have hy2 : y = m := h y (by simp [hy])
    simp [hx, hy2]

/-! ## The claims -/

/-- C1: every tree built from the empty tree by any sequence of insert and
delete operations satisfies, after each completed operation, all five
red-black invariants: every node is RED or BLACK (enforced by the `Color`
type), the sentinel and the root are BLACK, no RED node has a RED child,
at every node all paths to descendant sentinels pass through the same number
of BLACK nodes, and the BST ordering holds at every node. -/
theorem claim_C1 (ops : List Op) :
    RBNode.nil.rootColor = .BLACK ∧
    (runOps ops).rootColor = .BLACK ∧
    noRedRed (runOps ops) = true ∧
    blackBalancedB (runOps ops) = true ∧
    isBSTB (runOps ops) = true := by
  obtain ⟨⟨n, hbal⟩, hsort⟩ := runOps_WFT ops
  refine ⟨rfl, hbal.rootColor_eq, balanced_noRedRed hbal, ?_, sorted_isBSTB _ hsort⟩
  simp only [blackBalancedB, List.all_eq_true]
  intro s hs
  obtain ⟨c2, m, hsb⟩ := balanced_subtrees hbal s hs
  exact constList_of_const (balanced_pbcounts hsb)

/-- C2: for every sequence of insert operations on an initially empty tree
(duplicate keys allowed), the inorder traversal visits the stored keys in
non-decreasing order. -/
theorem claim_C2 (ks : List Int) :
    ((rb_traverse_inorder (runOps (ks.map Op.ins))).map Prod.fst).Sorted (· ≤ ·) := by
  rw [inorder_map_fst]
  exact (runOps_WFT (ks.map Op.ins)).2

/-- C3, counterexample to the quoted round-trip condition: after
`insert 1; insert 1; delete 1` the key 1 was not "inserted and not
subsequently deleted" (every insert of 1 is followed by a delete of 1), yet
`rb_search` still finds a node with key 1 — the delete removes only one of
the two copies. -/
theorem claim_C3_counterexample :
    insertedNotLaterDeleted [Op.ins 1, Op.ins 1, Op.del 1] 1 = false ∧
    rb_search (runOps [Op.ins 1, Op.ins 1, Op.del 1]) 1 ≠ .nil := by decide

/-- C3 (amended): for every tree built from the empty tree by inserts and
deletes, `rb_search` returns a non-sentinel node exactly when the multiset
count of `k` (inserts of `k` minus the deletes of `k` that found a copy) is
positive; when it returns a non-sentinel node, that node's key is `k`, and
otherwise it returns the sentinel. -/
theorem claim_C3 (ops : List Op) (k : Int) :
    (rb_search (runOps ops) k ≠ .nil ↔ 0 < modelCount ops k) ∧
    (rb_search (runOps ops) k = .nil ∨
      ∃ c l r, rb_search (runOps ops) k = .node c l k r) := by
  have hW := runOps_WFT ops
  have hiff := rb_search_nil_iff (runOps ops) k hW.2
  have hc := runOps_count ops k
  refine ⟨?_, rb_search_key (runOps ops) k⟩
  rw [← hc]
  constructor
  · intro hne
    have hmem : k ∈ inKeys (runOps ops) := by
      by_contra hmem
      exact hne (hiff.mpr hmem)
    exact List.count_pos_iff.mpr hmem
  · intro hpos heq
    exact absurd (List.count_pos_iff.mp hpos) (hiff.mp heq)

/-- Witness for C3: with the single operation `insert 2` the model count of
key 2 is positive and the search indeed returns a non-sentinel node. -/
theorem claim_C3_witness :
    rb_search (runOps [Op.ins 2, Op.del 3]) 2 ≠ .nil ∧
    0 < modelCount [Op.ins 2, Op.del 3] 2 :=
  ⟨(claim_C3 [Op.ins 2, Op.del 3] 2).1.mpr (by decide), by decide⟩

/-- C4: every tree built from the empty tree by inserts and deletes has
height at most twice the base-2 logarithm of (node count + 1). -/
theorem claim_C4 (ops : List Op) :
    rb_height (runOps ops) ≤ 2 * Nat.log 2 (rb_count_nodes (runOps ops) + 1) := by
  obtain ⟨⟨n, hbal⟩, -⟩ := runOps_WFT ops
  have hh := balanced_height hbal
  rw [if_neg (by decide)] at hh
  have hsz := balanced_size hbal
  have hlog : n ≤ Nat.log 2 (rb_count_nodes (runOps ops) + 1) :=
    (Nat.pow_le_iff_le_log (by norm_num) (by omega)).mp hsz
  omega

/-- C5: on every tree, the iterative stack-based DFS run with no target
(search value −1) produces exactly the recursive preorder visit sequence
(root, left subtree, right subtree) and returns no node; the recursive DFS
does the same. -/
theorem claim_C5 (t : RBNode) :
    rb_traverse_dfs_iterative t (-1) = (rb_traverse_preorder t, none) ∧
    rb_traverse_dfs_recursive t (-1) = (rb_traverse_preorder t, none) := by
  refine ⟨?_, dfsRec_traverse t⟩
  rw [rb_traverse_dfs_iterative]
  by_cases ht : t = .nil
  · rw [if_pos ht, ht]
    rfl
  · rw [if_neg ht, dfsIterGo_traverse [t]]
    simp

/-- C6, counterexample with duplicate keys: after inserting 5 three times,
both query keys 5 are present and `rb_find_lca` stops at the root (depth 0),
but a strictly deeper node also has key between 5 and 5 with both query keys
reachable below it — so the returned node is not the deepest such node. -/
theorem claim_C6_counterexample :
    rb_find_lca (runOps [Op.ins 5, Op.ins 5, Op.ins 5]) 5 5
        = runOps [Op.ins 5, Op.ins 5, Op.ins 5] ∧
    (∃ q ∈ subDepths (runOps [Op.ins 5, Op.ins 5, Op.ins 5]) 0,
      q.1 = runOps [Op.ins 5, Op.ins 5, Op.ins 5] ∧ q.2 = 0) ∧
    hasKeyB (runOps [Op.ins 5, Op.ins 5, Op.ins 5]) 5 = true ∧
    (∃ q ∈ subDepths (runOps [Op.ins 5, Op.ins 5, Op.ins 5]) 0,
      lcaCandB 5 5 q.1 = true ∧ 0 < q.2) := by decide

/-- C6 (amended): when the tree's keys are distinct (strictly sorted
inorder), for all present query keys `a ≤ b` the node returned by
`rb_find_lca` occurs in the tree at some depth `d`, its key lies between `a`
and `b` with both keys reachable below it, and every node with that
property lies at depth at most `d` — it is the deepest such node. -/
theorem claim_C6 (t : RBNode) (a b : Int)
    (hs : (inKeys t).Sorted (· < ·)) (hab : a ≤ b)
    (ha : a ∈ inKeys t) (hb : b ∈ inKeys t) :
    ∃ d : Nat, (rb_find_lca t a b, d) ∈ subDepths t 0 ∧
      lcaCandB a b (rb_find_lca t a b) = true ∧
      ∀ q ∈ subDepths t 0, lcaCandB a b q.1 = true → q.2 ≤ d :=
  lca_deepest a b hab t hs ha hb

/-- Witness for C6: the tree `insert 2; insert 1; insert 3` has strictly
sorted keys, both 1 and 3 are present, and the amended LCA property holds for
the query `(1, 3)`. -/
theorem claim_C6_witness :
    (inKeys (runOps [Op.ins 2, Op.ins 1, Op.ins 3])).Sorted (· < ·) ∧
    (1 : Int) ≤ 3 ∧
    (1 : Int) ∈ inKeys (runOps [Op.ins 2, Op.ins 1, Op.ins 3]) ∧
    (3 : Int) ∈ inKeys (runOps [Op.ins 2, Op.ins 1, Op.ins 3]) ∧
    (∃ d : Nat,
      (rb_find_lca (runOps [Op.ins 2, Op.ins 1, Op.ins 3]) 1 3, d)
          ∈ subDepths (runOps [Op.ins 2, Op.ins 1, Op.ins 3]) 0 ∧
      lcaCandB 1 3 (rb_find_lca (runOps [Op.ins 2, Op.ins 1, Op.ins 3]) 1 3) = true ∧
      ∀ q ∈ subDepths (runOps [Op.ins 2, Op.ins 1, Op.ins 3]) 0,
        lcaCandB 1 3 q.1 = true → q.2 ≤ d) :=
  ⟨by decide, by decide, by decide, by decide,
    claim_C6 (runOps [Op.ins 2, Op.ins 1, Op.ins 3]) 1 3 (by decide) (by decide)
      (by decide) (by decide)⟩

/-- C7: building from the sorted array `[10, 20, 30, 40, 50, 60, 70]` of
size 7 succeeds, the inorder key sequence of the result is exactly the input
array, and its height is 3. -/
theorem claim_C7 :
    ∃ t : RBNode,
      rb_create_from_sorted_array [10, 20, 30, 40, 50, 60, 70] 7 = some t ∧
      (rb_traverse_inorder t).map Prod.fst = [10, 20, 30, 40, 50, 60, 70] ∧
      rb_height t = 3 := by
  refine ⟨(rb_sorted_array_to_bst_helper [10, 20, 30, 40, 50, 60, 70] 0 6).setColor
    .BLACK, ?_, ?_, ?_⟩
  · rw [rb_create_from_sorted_array]
    norm_num
  · rw [helper_eval7]
    rfl
  · rw [helper_eval7]
    rfl

/-- C8: with search value −1 all three target-search traversals run in pure
traversal mode and return `NULL` (`none`); whenever one of them does return
a node, that node's key equals the search value, the search value is not −1
(so a node whose key is −1 is never returned), and the returned node is not
the sentinel. -/
theorem claim_C8 (t : RBNode) (sv : Int) :
    (rb_traverse_dfs_iterative t (-1)).2 = none ∧
    (rb_traverse_dfs_recursive t (-1)).2 = none ∧
    (rb_traverse_bfs t (-1)).2 = none ∧
    ((rb_traverse_dfs_iterative t sv).2.all fun x =>
      decide (x.rootKey = sv) && decide (sv ≠ -1) && decide (x ≠ .nil)) = true ∧
    ((rb_traverse_dfs_recursive t sv).2.all fun x =>
      decide (x.rootKey = sv) && decide (sv ≠ -1) && decide (x ≠ .nil)) = true ∧
    ((rb_traverse_bfs t sv).2.all fun x =>
      decide (x.rootKey = sv) && decide (sv ≠ -1) && decide (x ≠ .nil)) = true :=
  ⟨none_of_found (dfsIter_found t (-1)),
   none_of_found (dfsRec_found (-1) t),
   none_of_found (bfs_found t (-1)),
   optAll_of_found (dfsIter_found t sv),
   optAll_of_found (dfsRec_found sv t),
   optAll_of_found (bfs_found t sv)⟩

/-- C9: every insert creates and links exactly one new node, even when the
key is already present: the node count grows by exactly 1 and the number of
stored copies of the inserted key grows by exactly 1 (multiset behaviour). -/
theorem claim_C9 (t : RBNode) (k : Int) :
    rb_count_nodes (rb_insert_node t k) = rb_count_nodes t + 1 ∧
    (inKeys (rb_insert_node t k)).count k = (inKeys t).count k + 1 := by
  constructor
  · rw [count_nodes_eq_length, count_nodes_eq_length, rb_insert_length]
  · rw [List.Perm.count_eq (rb_insert_perm t k)]
    simp

/-- C10: `rb_black_height` inspects only the leftmost path and counts the
sentinel as one BLACK node: it is 1 on the empty tree, equals 1 plus the
number of BLACK nodes down the left spine for every tree, and equals 2 on a
tree holding a single BLACK root. -/
theorem claim_C10 (t : RBNode) :
    rb_black_height RBNode.nil = 1 ∧
    rb_black_height t = spineBlacks t + 1 ∧
    rb_black_height (RBNode.node .BLACK .nil 0 .nil) = 2 := by
  refine ⟨rfl, ?_, rfl⟩
  induction t with
  | nil => rfl
  | node c l k r ihl ihr =>
    simp only [rb_black_height, spineBlacks, ihl]
    omega

end RBTreeC
